import Mathlib

/-!
# shell/shell.go

A shallow embedding of the three functions of `shell/shell.go`
(`IsPipedShell`, `ExecuteCommandWithConfirmation` with `getUserConfirmation`,
and `executeShellCommand`) together with the parts of the Go standard library
they lean on (`bufio.Reader.ReadRune`, `bufio.Reader.fill`, `utf8.FullRune`,
`utf8.DecodeRune`).

The streams are explicit state.  The input `io.Reader` is the list of results
its successive `Read` calls return, followed by end of file; the output
`io.Writer` is the list of outcomes of its successive `Write` calls, followed
by success.  Every stream operation and every process run is appended to a
trace, so that order and number of operations can be stated.

The input handed to `getUserConfirmation` is of one of two kinds, because
`bufio.NewReader(input)` tells them apart.  When the input is itself a
`*bufio.Reader` whose buffer has at least 4096 bytes, `bufio.NewReader` returns it
as it is: its state (the bytes it has buffered, its pending error) is part of the
world and lives on from one iteration to the next.  Any other reader, a
`*bufio.Reader` with a smaller buffer included, is wrapped in a new
`bufio.Reader`, is only ever used through `Read`, and is described by what its
`Read` calls return.
-/

namespace Shell

/-! ## Errors, streams and the world -/

/-- Go `error` values that the streams and the process layer can produce. -/
inductive GoError where
  | EOF
  | ErrNoProgress
  | other (msg : String)
deriving DecidableEq, Repr

/-- What one `Read` call on the input reader returns: the bytes it hands over
and the error it returns with them. -/
structure ReadResult where
  bytes : List Nat
  err : Option GoError
deriving DecidableEq, Repr

/-- The value of `exec.Cmd` that `executeShellCommand` builds; `Stdout` is always
the output writer of the world. -/
structure Cmd where
  ctx : Nat
  name : String
  args : List String
deriving DecidableEq, Repr

/-- What a child process does: the text it writes to its standard output and the
error `cmd.Run()` returns. -/
structure ProcResult where
  stdout : String
  err : Option GoError
deriving DecidableEq, Repr

/-- Observable operations, in the order they happen. -/
inductive Effect where
  | write (s : String) (err : Option GoError)
  | read (bytes : List Nat) (err : Option GoError)
  | run (cmd : Cmd) (res : ProcResult)
deriving DecidableEq, Repr

def defaultBufSize : Nat := 4096

/-- The state of a `bufio.Reader` whose buffer has at least `defaultBufSize` bytes:
the bytes its buffer has beyond `defaultBufSize`, the bytes buffered and not yet
consumed (`buf[r:w]`) and the pending error. -/
structure Reader where
  extra : Nat
  buf : List Nat
  err : Option GoError
deriving DecidableEq, Repr

/-- The size `len(b.buf)` of the buffer; it is at least `defaultBufSize`, which is
the test `len(b.buf) >= size` that `bufio.NewReaderSize` makes before it returns
the reader it is given. -/
def Reader.size (b : Reader) : Nat := defaultBufSize + b.extra

/-- The environment of a call: host operating system (`runtime.GOOS`), what the
`Read` calls on the input (on the reader under it when the input is itself a
`*bufio.Reader` with a buffer of at least `defaultBufSize` bytes) will return, the
state of the input when it is such a `*bufio.Reader` (`none` for every other
reader), how the writes on the output writer will end, how the processes spawned
will end, and the operations performed and debug lines logged so far. -/
structure World where
  goos : String
  input : List ReadResult
  bufio : Option Reader
  writes : List (Option GoError)
  procs : List ProcResult
  trace : List Effect
  log : List String
deriving DecidableEq, Repr

/-- The call `slog.Debug(msg)`. -/
def World.Debug (msg : String) (w : World) : World :=
  { w with log := w.log ++ [msg] }

/-- The call `input.Read(p)` with `len(p) = cap`: the next scheduled result, cut to
the room available (what does not fit stays for the next call); end of file once
the schedule is exhausted. -/
def World.Read (cap : Nat) (w : World) : (List Nat × Option GoError) × World :=
  match w.input with
  | [] =>
    (([], some GoError.EOF), { w with trace := w.trace ++ [Effect.read [] (some GoError.EOF)] })
  | r :: rest =>
    if r.bytes.length ≤ cap then
      ((r.bytes, r.err),
        { w with input := rest, trace := w.trace ++ [Effect.read r.bytes r.err] })
    else
      ((r.bytes.take cap, none),
        { w with
          input := { r with bytes := r.bytes.drop cap } :: rest,
          trace := w.trace ++ [Effect.read (r.bytes.take cap) none] })

/-- The call `fmt.Fprint(output, s)`: one `Write` on the output writer, whose outcome
is the next scheduled one (success once the schedule is exhausted). -/
def World.Fprint (s : String) (w : World) : Option GoError × World :=
  match w.writes with
  | [] => (none, { w with trace := w.trace ++ [Effect.write s none] })
  | o :: rest => (o, { w with writes := rest, trace := w.trace ++ [Effect.write s o] })

/-- The call `cmd.Run()` with `cmd.Stdout` bound to the output writer: the next
scheduled process result (a silent success once the schedule is exhausted). -/
def World.Run (cmd : Cmd) (w : World) : Option GoError × World :=
  match w.procs with
  | [] => (none, { w with trace := w.trace ++ [Effect.run cmd ⟨"", none⟩] })
  | p :: rest => (p.err, { w with procs := rest, trace := w.trace ++ [Effect.run cmd p] })

/-! ## unicode/utf8 -/

def RuneError : Nat := 0xFFFD
def RuneSelf : Nat := 0x80
def UTFMax : Nat := 4

def maskx : Nat := 0x3F
def mask2 : Nat := 0x1F
def mask3 : Nat := 0x0F
def mask4 : Nat := 0x07
def locb : Nat := 0x80
def hicb : Nat := 0xBF

def xx : Nat := 0xF1
def as : Nat := 0xF0
def s1 : Nat := 0x02
def s2 : Nat := 0x13
def s3 : Nat := 0x03
def s4 : Nat := 0x23
def s5 : Nat := 0x34
def s6 : Nat := 0x04
def s7 : Nat := 0x44

/-- The table `utf8.first`: information about the first byte of an encoding. -/
def first (b : Nat) : Nat :=
  if b < 0x80 then as
  else if b < 0xC2 then xx
  else if b < 0xE0 then s1
  else if b = 0xE0 then s2
  else if b < 0xED then s3
  else if b = 0xED then s4
  else if b < 0xF0 then s3
  else if b = 0xF0 then s5
  else if b < 0xF4 then s6
  else if b = 0xF4 then s7
  else xx

/-- The table `utf8.acceptRanges` (16 entries, the last 11 zero): lowest and highest
accepted second byte. -/
def acceptRanges (i : Nat) : Nat × Nat :=
  match i with
  | 0 => (locb, hicb)
  | 1 => (0xA0, hicb)
  | 2 => (locb, 0x9F)
  | 3 => (0x90, hicb)
  | 4 => (locb, 0x8F)
  | _ => (0, 0)

/-- The function `utf8.FullRune`: do the bytes begin with a full encoding of a rune
(an invalid encoding counts as a full rune of width one). -/
def FullRune (p : List Nat) : Bool :=
  let n := p.length
  if n = 0 then false
  else
    let x := first (p.getD 0 0)
    if n ≥ x &&& 7 then true
    else
      let accept := acceptRanges (x >>> 4)
      if n > 1 ∧ (p.getD 1 0 < accept.1 ∨ accept.2 < p.getD 1 0) then true
      else if n > 2 ∧ (p.getD 2 0 < locb ∨ hicb < p.getD 2 0) then true
      else false

/-- The function `utf8.DecodeRune`: first rune of `p` and its width in bytes. -/
def DecodeRune (p : List Nat) : Nat × Nat :=
  let n := p.length
  if n < 1 then (RuneError, 0)
  else
    let p0 := p.getD 0 0
    let x := first p0
    if x ≥ as then
      -- `mask := rune(x) << 31 >> 31` is all ones when bit 0 of x is set (x = xx)
      -- and zero otherwise (x = as)
      if x &&& 1 = 0 then (p0, 1) else (RuneError, 1)
    else
      let sz := x &&& 7
      let accept := acceptRanges (x >>> 4)
      if n < sz then (RuneError, 1)
      else
        let b1 := p.getD 1 0
        if b1 < accept.1 ∨ accept.2 < b1 then (RuneError, 1)
        else if sz ≤ 2 then (((p0 &&& mask2) <<< 6) ||| (b1 &&& maskx), 2)
        else
          let b2 := p.getD 2 0
          if b2 < locb ∨ hicb < b2 then (RuneError, 1)
          else if sz ≤ 3 then
            (((p0 &&& mask3) <<< 12) ||| ((b1 &&& maskx) <<< 6) ||| (b2 &&& maskx), 3)
          else
            let b3 := p.getD 3 0
            if b3 < locb ∨ hicb < b3 then (RuneError, 1)
            else
              (((p0 &&& mask4) <<< 18) ||| ((b1 &&& maskx) <<< 12) ||| ((b2 &&& maskx) <<< 6)
                ||| (b3 &&& maskx), 4)

/-! ## bufio -/

def maxConsecutiveEmptyReads : Nat := 100

/-- The call `bufio.NewReader(input)`, that is `NewReaderSize(input, defaultBufSize)`:
the input itself when it is a `*bufio.Reader` with a buffer of at least
`defaultBufSize` bytes (`b, ok := rd.(*Reader); if ok && len(b.buf) >= size`), a new
reader with an empty buffer of `defaultBufSize` bytes around the input otherwise. -/
def NewReader (w : World) : Reader :=
  match w.bufio with
  | some b => b
  | none => ⟨0, [], none⟩

/-- The reader is used through a pointer: when it is the input itself, the state
the calls leave it in is the state of the input from then on; a reader made for
the iteration is dropped with what it holds. -/
def World.keep (b : Reader) (w : World) : World :=
  match w.bufio with
  | some _ => { w with bufio := some b }
  | none => w

/-- The `for i := maxConsecutiveEmptyReads; i > 0; i--` loop of `fill`, with `i`
iterations to go; the room left in the buffer is `len(b.buf) - (b.w - b.r)`, the
buffered bytes having been moved to its start. -/
def fillLoop : Nat → Reader → World → Reader × World
  | 0, b, w => ({ b with err := some GoError.ErrNoProgress }, w)
  | i + 1, b, w =>
    match w.Read (b.size - b.buf.length) with
    | ((bytes, some e), w1) => ({ b with buf := b.buf ++ bytes, err := some e }, w1)
    | ((bytes, none), w1) =>
      if bytes.length > 0 then ({ b with buf := b.buf ++ bytes }, w1)
      else fillLoop i { b with buf := b.buf ++ bytes } w1

/-- The method `(*bufio.Reader).fill`. -/
def fill (b : Reader) (w : World) : Reader × World :=
  fillLoop maxConsecutiveEmptyReads b w

/-- The loop at the head of `ReadRune`, which fills until the buffer begins with a
full rune, holds `UTFMax` bytes, or an error is pending; `n` bounds the number of
rounds. -/
def readRuneFill : Nat → Reader → World → Reader × World
  | 0, b, w => (b, w)
  | n + 1, b, w =>
    if b.buf.length < UTFMax ∧ FullRune b.buf = false ∧ b.err = none
        ∧ b.buf.length < b.size then
      match fill b w with
      | (b1, w1) => readRuneFill n b1 w1
    else (b, w)

/-- The method `(*bufio.Reader).ReadRune`: rune, width and error, and the state it
leaves the reader in (the rune consumed, or the pending error handed out and
cleared by `readErr`).  Each round of the filling loop adds a byte or sets the
error, so `UTFMax` rounds always suffice. -/
def ReadRune (b : Reader) (w : World) : (Nat × Nat × Option GoError) × Reader × World :=
  match readRuneFill UTFMax b w with
  | (b1, w1) =>
    if b1.buf.length = 0 then ((0, 0, b1.err), { b1 with err := none }, w1)
    else
      let r := b1.buf.getD 0 0
      if r ≥ RuneSelf then
        let d := DecodeRune b1.buf
        ((d.1, d.2, none), { b1 with buf := b1.buf.drop d.2 }, w1)
      else ((r, 1, none), { b1 with buf := b1.buf.drop 1 }, w1)

/-! ## shell.go -/

/-- The prompt written by `getUserConfirmation`. -/
def prompt : String := "Do you want to execute this command? (Y/n) "

/-- The Go conversion `string(char)` of a rune. -/
def runeString (char : Nat) : String := String.singleton (Char.ofNat char)

/-- The constant `os.ModeNamedPipe`: the seventh of the mode bits that are counted
down from bit 31 (`1 << (32 - 1 - iota)` with `iota = 6`). -/
def ModeNamedPipe : Nat := 1 <<< (32 - 1 - 6)

/-- The function `IsPipedShell`, given what `os.Stdin.Stat()` returns: an error, or
the file mode `fi.Mode()`. -/
def IsPipedShell (stat : Except GoError Nat) : Bool × Option GoError :=
  match stat with
  | Except.error err => (false, some err)
  | Except.ok mode =>
    if mode &&& ModeNamedPipe = 0 then (false, none)
    else (true, none)

/-- The function `executeShellCommand`. -/
def executeShellCommand (ctx : Nat) (command : String) (w : World) : Option GoError × World :=
  let sel : World × String × List String :=
    if w.goos = "windows" then
      (w.Debug "Running on Windows - using cmd", "cmd", ["/C", command])
    else
      (w.Debug "Running on Linux like OS - using bash", "bash", ["-c", command])
  match sel.1.Run ⟨ctx, sel.2.1, sel.2.2⟩ with
  | (some err, w1) => (some err, w1)
  | (none, w1) => (none, w1.Debug "Command executed successfully")

/-- One iteration of the `for` loop of `getUserConfirmation`: `some r` when the
iteration returns `r`, `none` when the loop goes round again.  The runes compared
are `'\n'` (10), `'\r'` (13), `'Y'` (89), `'y'` (121), `'N'` (78) and `'n'` (110). -/
def loopBody (w : World) : Option (Bool × Option GoError) × World :=
  match w.Fprint prompt with
  | (some err, w1) => (some (false, some err), w1)
  | (none, w1) =>
    match ReadRune (NewReader w1) w1 with
    | ((_, _, some err), reader, w2) => (some (false, some err), w2.keep reader)
    | ((char, _, none), reader, w2) =>
      if char = 10 ∨ char = 13 ∨ char = 89 ∨ char = 121 then
        (some (true, none), (w2.keep reader).Debug "User confirmed")
      else if char = 78 ∨ char = 110 then
        (some (false, none), (w2.keep reader).Debug "User denied")
      else
        (none, (w2.keep reader).Debug
          ("User entered unrecognised input for confirmation: " ++ runeString char))

/-- The `for` loop of `getUserConfirmation`, allowed `fuel` iterations; `none` when
it has not returned within them. -/
def confirmLoop : Nat → World → Option ((Bool × Option GoError) × World)
  | 0, _ => none
  | fuel + 1, w =>
    match loopBody w with
    | (some r, w1) => some (r, w1)
    | (none, w1) => confirmLoop fuel w1

/-- Bytes and results the `Read` calls still have to deliver. -/
def pending (input : List ReadResult) : Nat :=
  (input.map fun r => r.bytes.length + 1).sum

/-- Bytes and results the input still has to deliver, those it has buffered when it
is itself a `*bufio.Reader` included. -/
def World.left (w : World) : Nat := pending w.input + (NewReader w).buf.length

/-- The function `getUserConfirmation`.  Every iteration that does not return takes
at least one byte from the input, so `w.left + 1` iterations are enough
(`getUserConfirmation_returns`). -/
def getUserConfirmation (w : World) : Option ((Bool × Option GoError) × World) :=
  confirmLoop (w.left + 1) w

/-- The function `ExecuteCommandWithConfirmation`. -/
def ExecuteCommandWithConfirmation (ctx : Nat) (command : String) (w : World) :
    Option (Option GoError × World) :=
  match getUserConfirmation w with
  | none => none
  | some ((_, some err), w1) => some (some err, w1)
  | some ((ok, none), w1) =>
    if ok then some (executeShellCommand ctx command w1)
    else some (none, w1)

/-! ## Vocabulary of the statements -/

/-- The rune `ReadRune` returns when the buffered bytes are `p`. -/
def firstRune (p : List Nat) : Nat :=
  if p.getD 0 0 ≥ RuneSelf then (DecodeRune p).1 else p.getD 0 0

/-- The width `ReadRune` returns when the buffered bytes are `p`. -/
def runeWidth (p : List Nat) : Nat :=
  if p.getD 0 0 ≥ RuneSelf then (DecodeRune p).2 else 1

/-- The runes `getUserConfirmation` accepts as an answer: newline, carriage return,
`Y`, `y`, `N`, `n`. -/
def recognised (char : Nat) : Bool := decide (char ∈ [10, 13, 89, 121, 78, 110])

/-- The runes `getUserConfirmation` takes for a yes: newline, carriage return, `Y`, `y`. -/
def affirmative (char : Nat) : Bool := decide (char ∈ [10, 13, 89, 121])

/-- The debug line logged for an unrecognised rune. -/
def unrecognisedLine (char : Nat) : String :=
  "User entered unrecognised input for confirmation: " ++ runeString char

/-- The trace of iterations that each write the prompt and take one `Read` result. -/
def rounds : List ReadResult → List Effect
  | [] => []
  | r :: rs => Effect.write prompt none :: Effect.read r.bytes r.err :: rounds rs

/-- Number of times the prompt has been written in full. -/
def prompts (t : List Effect) : Nat := t.count (Effect.write prompt none)

/-- The commands run, in order. -/
def runs : List Effect → List Cmd
  | [] => []
  | Effect.run cmd _ :: t => cmd :: runs t
  | _ :: t => runs t

/-- The texts that reached the output stream, in order: what was written to the
writer in full and what the processes run wrote to their standard output. -/
def outputText : List Effect → List String
  | [] => []
  | Effect.write s none :: t => s :: outputText t
  | Effect.run _ res :: t => res.stdout :: outputText t
  | _ :: t => outputText t

/-- Is the operation a `Read` on the input. -/
def Effect.isRead : Effect → Bool
  | Effect.read _ _ => true
  | _ => false

/-- Is the operation a `Read` on the input or a write of the prompt. -/
def Effect.isConfirm : Effect → Bool
  | Effect.read _ _ => true
  | Effect.write s _ => decide (s = prompt)
  | _ => false

/-- The bytes of successive `Read` results. -/
def bytesOf : List ReadResult → List Nat
  | [] => []
  | r :: rs => r.bytes ++ bytesOf rs

/-- The input is itself a `*bufio.Reader` with a buffer of at least `defaultBufSize`
bytes and no error pending, and the bytes `s` are what it holds in its buffer
followed by what the next `Read` calls under it hand over, none of them empty or
with an error; `rest` is what the `Read` calls after those return. -/
def Delivers (w : World) (s : List Nat) (rest : List ReadResult) : Prop :=
  ∃ b chunks, w.bufio = some b ∧ b.err = none ∧ w.input = chunks ++ rest
    ∧ (∀ r ∈ chunks, r.bytes ≠ [] ∧ r.err = none) ∧ b.buf ++ bytesOf chunks = s

/-- The bytes `ch` are one whole character that is not an answer. -/
def Unrecognised (ch : List Nat) : Prop :=
  FullRune ch = true ∧ runeWidth ch = ch.length ∧ recognised (firstRune ch) = false

/-- The world `w1` is `w` after operations that all satisfy `p`, with host and
process schedule as before. -/
def Extends (p : Effect → Bool) (w w1 : World) : Prop :=
  w1.goos = w.goos ∧ w1.procs = w.procs ∧ ∃ d, w1.trace = w.trace ++ d ∧ ∀ x ∈ d, p x = true

/-- The world `w1` is `w` after calls of `Read` only: all but the input schedule and
the trace is as before, and the trace has grown by reads. -/
def Reads (w w1 : World) : Prop :=
  w1.goos = w.goos ∧ w1.bufio = w.bufio ∧ w1.writes = w.writes ∧ w1.procs = w.procs
    ∧ w1.log = w.log ∧ ∃ d, w1.trace = w.trace ++ d ∧ ∀ x ∈ d, Effect.isRead x = true

/-! ## A full rune is decoded the same whatever follows it -/

theorem FullRune_ascii (c : Nat) (bs : List Nat) (hc : c < 0x80) : FullRune (c :: bs) = true := by
  have h7 : (0xF0 &&& 7 : Nat) = 0 := by decide
  simp [FullRune, first, hc, as, h7]

theorem firstRune_ascii (c : Nat) (bs : List Nat) (hc : c < 0x80) : firstRune (c :: bs) = c := by
  simp [firstRune, RuneSelf, hc]

theorem recognised_lt (c : Nat) (hc : recognised c = true) : c < 0x80 := by
  simp only [recognised, List.mem_cons, List.mem_singleton, List.mem_nil_iff, or_false,
    decide_eq_true_eq] at hc
  omega

theorem first_width_le (a : Nat) : first a &&& 7 ≤ 4 := by
  unfold first
  split_ifs <;> decide

theorem first_lead (a : Nat) : as ≤ first a ∨ (first a < as ∧ 2 ≤ first a &&& 7 ∧ first a &&& 7 ≤ 4) := by
  unfold first
  split_ifs <;> decide

theorem FullRune_append (p q : List Nat) (h : FullRune p = true) : FullRune (p ++ q) = true := by
  have h4 : ∀ a, first a &&& 7 ≤ 4 := first_width_le
  match p, h with
  | [], h => simp [FullRune] at h
  | [a], h =>
    have := h4 a
    simp [FullRune] at h ⊢
    left; omega
  | [a, b], h =>
    have := h4 a
    simp [FullRune] at h ⊢
    rcases h with h | h
    · left; omega
    · right; left; exact h
  | [a, b, c], h =>
    have := h4 a
    simp [FullRune] at h ⊢
    rcases h with h | h | h
    · left; omega
    · right; left; exact h
    · right; right; exact h
  | a :: b :: c :: d :: r, h =>
    have := h4 a
    simp [FullRune] at h ⊢
    left; omega

/-- The rune decoded depends only on the bytes of the full rune the buffer begins
with. -/
theorem DecodeRune_congr (p p' : List Nat) (hfull : FullRune p = true)
    (hlen : p.length ≤ p'.length)
    (h0 : p'.getD 0 0 = p.getD 0 0)
    (h1 : 1 < p.length → p'.getD 1 0 = p.getD 1 0)
    (h2 : 2 < p.length → p'.getD 2 0 = p.getD 2 0)
    (h3 : 3 < p.length → p'.getD 3 0 = p.getD 3 0) :
    DecodeRune p' = DecodeRune p := by
  have hl := first_lead (p.getD 0 0)
  unfold DecodeRune
  unfold FullRune at hfull
  dsimp only at hfull
  simp only [h0]
  generalize p'.getD 1 0 = b' at *
  generalize p'.getD 2 0 = c' at *
  generalize p'.getD 3 0 = d' at *
  generalize p.getD 1 0 = b at *
  generalize p.getD 2 0 = c at *
  generalize p.getD 3 0 = d at *
  generalize first (p.getD 0 0) &&& 7 = sz at *
  generalize acceptRanges (first (p.getD 0 0) >>> 4) = acc at *
  generalize first (p.getD 0 0) = x at *
  generalize p.getD 0 0 = a at *
  generalize p.length = n at *
  generalize p'.length = n' at *
  have hn0 : n ≠ 0 := by intro hn; simp [hn] at hfull
  have e1 : ¬ n < 1 := by omega
  have e1' : ¬ n' < 1 := by omega
  simp only [e1, e1', if_false]
  by_cases hx : x ≥ as
  · simp only [hx, if_true]
  · simp only [hx, if_false]
    have hsz : 2 ≤ sz ∧ sz ≤ 4 := by
      rcases hl with hl | hl
      · exact absurd hl hx
      · exact hl.2
    by_cases hns : n < sz
    · have hge : ¬ n ≥ sz := by omega
      simp only [hn0, hge, if_false] at hfull
      simp only [hns, if_true]
      by_cases hns' : n' < sz
      · simp only [hns', if_true]
      · simp only [hns', if_false]
        by_cases hb1 : n > 1 ∧ (b < acc.1 ∨ acc.2 < b)
        · have := h1 hb1.1
          subst this
          rw [if_pos hb1.2]
        · simp only [hb1, if_false] at hfull
          by_cases hb2 : n > 2 ∧ (c < locb ∨ hicb < c)
          · have := h2 hb2.1
            subst this
            have hs2 : ¬ sz ≤ 2 := by omega
            simp only [hb2.2, hs2, if_true, if_false]
            split_ifs <;> rfl
          · simp [hb2] at hfull
    · have hns' : ¬ n' < sz := by omega
      simp only [hns, hns', if_false]
      have := h1 (by omega)
      subst this
      by_cases hs2 : sz ≤ 2
      · simp only [hs2, if_true]
      · simp only [hs2, if_false]
        have := h2 (by omega)
        subst this
        by_cases hs3 : sz ≤ 3
        · simp only [hs3, if_true]
        · simp only [hs3, if_false]
          have := h3 (by omega)
          subst this
          rfl

theorem DecodeRune_append (p q : List Nat) (h : FullRune p = true) :
    DecodeRune (p ++ q) = DecodeRune p :=
  DecodeRune_congr p (p ++ q) h (by simp)
    (List.getD_append _ _ _ _ (by
      cases p with
      | nil => simp [FullRune] at h
      | cons a t => simp))
    (fun h1 => List.getD_append _ _ _ _ h1)
    (fun h2 => List.getD_append _ _ _ _ h2)
    (fun h3 => List.getD_append _ _ _ _ h3)

theorem firstRune_append (p q : List Nat) (h : FullRune p = true) :
    firstRune (p ++ q) = firstRune p := by
  have h0 : (p ++ q).getD 0 0 = p.getD 0 0 := by
    cases p with
    | nil => simp [FullRune] at h
    | cons a t => simp
  unfold firstRune
  rw [h0, DecodeRune_append p q h]


/-- The width decoded is at least one, at most four, and at most the number of
bytes. -/
theorem DecodeRune_width (p : List Nat) (h : p ≠ []) :
    1 ≤ (DecodeRune p).2 ∧ (DecodeRune p).2 ≤ p.length ∧ (DecodeRune p).2 ≤ 4 := by
  have hl := first_lead (p.getD 0 0)
  have hn : 1 ≤ p.length := List.length_pos.mpr h
  unfold DecodeRune
  dsimp only
  generalize first (p.getD 0 0) &&& 7 = sz at *
  generalize acceptRanges (first (p.getD 0 0) >>> 4) = acc at *
  generalize first (p.getD 0 0) = x at *
  generalize p.length = n at *
  have e1 : ¬ n < 1 := by omega
  simp only [e1, if_false]
  by_cases hx : x ≥ as
  · simp only [hx, if_true]
    split <;> simp <;> omega
  · simp only [hx, if_false]
    have hsz : 2 ≤ sz ∧ sz ≤ 4 := by
      rcases hl with hl | hl
      · exact absurd hl hx
      · exact hl.2
    split
    · simp; omega
    · split
      · simp; omega
      · split
        · simp; omega
        · split
          · simp; omega
          · split
            · simp; omega
            · split
              · simp; omega
              · simp; omega

theorem runeWidth_bounds (p : List Nat) (h : p ≠ []) :
    1 ≤ runeWidth p ∧ runeWidth p ≤ p.length ∧ runeWidth p ≤ 4 := by
  have hn : 1 ≤ p.length := List.length_pos.mpr h
  unfold runeWidth
  split
  · exact DecodeRune_width p h
  · omega

theorem FullRune_ne_nil (p : List Nat) (h : FullRune p = true) : p ≠ [] := by
  intro h0; rw [h0] at h; simp [FullRune] at h

/-- Four bytes always begin with a full rune. -/
theorem FullRune_of_length (p : List Nat) (h : UTFMax ≤ p.length) : FullRune p = true := by
  have h4 := first_width_le (p.getD 0 0)
  unfold FullRune
  dsimp only
  unfold UTFMax at h
  have h0 : ¬ p.length = 0 := by omega
  have h1 : p.length ≥ first (p.getD 0 0) &&& 7 := by omega
  simp only [h0, h1, if_false, if_true]

theorem runeWidth_append (p q : List Nat) (h : FullRune p = true) :
    runeWidth (p ++ q) = runeWidth p := by
  have h0 : (p ++ q).getD 0 0 = p.getD 0 0 := by
    cases p with
    | nil => simp [FullRune] at h
    | cons a t => simp
  unfold runeWidth
  rw [h0, DecodeRune_append p q h]


/-! ## Reading: what it leaves untouched and what it takes -/

theorem Reads_refl (w : World) : Reads w w :=
  ⟨rfl, rfl, rfl, rfl, rfl, [], by simp, by simp⟩

theorem Reads_trans {w w1 w2 : World} (h1 : Reads w w1) (h2 : Reads w1 w2) : Reads w w2 := by
  obtain ⟨a1, b1, c1, d1, e1, t1, u1, v1⟩ := h1
  obtain ⟨a2, b2, c2, d2, e2, t2, u2, v2⟩ := h2
  refine ⟨a2.trans a1, b2.trans b1, c2.trans c1, d2.trans d1, e2.trans e1, t1 ++ t2,
    by rw [u2, u1, List.append_assoc], ?_⟩
  intro x hx
  rcases List.mem_append.mp hx with h | h
  · exact v1 x h
  · exact v2 x h

theorem Read_reads (cap : Nat) (w : World) : Reads w (w.Read cap).2 := by
  unfold World.Read
  cases h : w.input with
  | nil => exact ⟨rfl, rfl, rfl, rfl, rfl, _, rfl, by simp [Effect.isRead]⟩
  | cons r rest =>
    by_cases hc : r.bytes.length ≤ cap
    · simp only [hc, if_true]; exact ⟨rfl, rfl, rfl, rfl, rfl, _, rfl, by simp [Effect.isRead]⟩
    · simp only [hc, if_false]; exact ⟨rfl, rfl, rfl, rfl, rfl, _, rfl, by simp [Effect.isRead]⟩

theorem Read_pending (cap : Nat) (w : World) :
    pending (w.Read cap).2.input + (w.Read cap).1.1.length ≤ pending w.input := by
  unfold World.Read
  cases h : w.input with
  | nil => simp [pending]
  | cons r rest =>
    by_cases hc : r.bytes.length ≤ cap
    · simp [hc, pending]; omega
    · simp [hc, pending]; omega

/-- What `fill` does to reader and world: the reader keeps its size, the world is
only read from, the bytes the buffer gains are taken from the input, and the buffer
grows unless an error is set. -/
theorem fillLoop_spec (i : Nat) : ∀ (b : Reader) (w : World),
    (fillLoop i b w).1.extra = b.extra
      ∧ Reads w (fillLoop i b w).2
      ∧ pending (fillLoop i b w).2.input + (fillLoop i b w).1.buf.length
          ≤ pending w.input + b.buf.length
      ∧ ((fillLoop i b w).1.err ≠ none ∨ b.buf.length < (fillLoop i b w).1.buf.length) := by
  induction i with
  | zero => intro b w; exact ⟨rfl, Reads_refl w, Nat.le_refl _, Or.inl (by simp [fillLoop])⟩
  | succ i ih =>
    intro b w
    have hr := Read_pending (b.size - b.buf.length) w
    have hs := Read_reads (b.size - b.buf.length) w
    unfold fillLoop
    rcases hq : w.Read (b.size - b.buf.length) with ⟨⟨bytes, e⟩, w1⟩
    rw [hq] at hr hs
    simp only at hr hs
    cases e with
    | some e => exact ⟨rfl, hs, by simp; omega, Or.inl (by simp)⟩
    | none =>
      by_cases hb : bytes.length > 0
      · dsimp only
        rw [if_pos hb]
        exact ⟨rfl, hs, by simp; omega, Or.inr (by simp; omega)⟩
      · dsimp only
        rw [if_neg hb]
        obtain ⟨i1, i2, i3, i4⟩ := ih { b with buf := b.buf ++ bytes } w1
        have hb0 : bytes = [] := by
          cases bytes with
          | nil => rfl
          | cons a t => simp at hb
        subst hb0
        simp only [List.append_nil, List.length_nil, Nat.add_zero] at i1 i2 i3 i4 hr ⊢
        exact ⟨i1, Reads_trans hs i2, by omega, i4⟩

theorem readRuneFill_spec (n : Nat) : ∀ (b : Reader) (w : World),
    (readRuneFill n b w).1.extra = b.extra
      ∧ Reads w (readRuneFill n b w).2
      ∧ pending (readRuneFill n b w).2.input + (readRuneFill n b w).1.buf.length
          ≤ pending w.input + b.buf.length := by
  induction n with
  | zero => intro b w; exact ⟨rfl, Reads_refl w, Nat.le_refl _⟩
  | succ n ih =>
    intro b w
    unfold readRuneFill
    split
    · obtain ⟨f1, f2, f3, _⟩ := fillLoop_spec maxConsecutiveEmptyReads b w
      obtain ⟨i1, i2, i3⟩ := ih (fill b w).1 (fill b w).2
      unfold fill at i1 i2 i3 ⊢
      simp only
      exact ⟨i1.trans f1, Reads_trans f2 i2, by omega⟩
    · exact ⟨rfl, Reads_refl w, Nat.le_refl _⟩

/-- Once an error is pending the filling loop of `ReadRune` stops. -/
theorem readRuneFill_err (n : Nat) (b : Reader) (w : World) (h : b.err ≠ none) :
    readRuneFill n b w = (b, w) := by
  cases n with
  | zero => rfl
  | succ n => simp [readRuneFill, h]

/-- The filling loop of `ReadRune` never runs out of rounds: when it stops, the
condition of the Go loop is false. -/
theorem readRuneFill_done (n : Nat) : ∀ (b : Reader) (w : World), UTFMax ≤ n + b.buf.length →
    ¬ ((readRuneFill n b w).1.buf.length < UTFMax ∧ FullRune (readRuneFill n b w).1.buf = false
        ∧ (readRuneFill n b w).1.err = none
        ∧ (readRuneFill n b w).1.buf.length < (readRuneFill n b w).1.size) := by
  induction n with
  | zero => intro b w h; simp [readRuneFill] at h ⊢; omega
  | succ n ih =>
    intro b w h
    unfold readRuneFill
    split
    · simp only
      rcases (fillLoop_spec maxConsecutiveEmptyReads b w).2.2.2 with he | hl
      · rw [readRuneFill_err n _ _ (by simpa [fill] using he)]
        intro hc
        exact he (by simpa [fill] using hc.2.2.1)
      · exact ih _ _ (by simp only [fill]; omega)
    · assumption

/-- After its filling loop, `ReadRune` has a byte or an error. -/
theorem readRuneFill_some (b : Reader) (w : World) :
    (readRuneFill UTFMax b w).1.err ≠ none ∨ 0 < (readRuneFill UTFMax b w).1.buf.length := by
  have h := readRuneFill_done UTFMax b w (by omega)
  by_cases he : (readRuneFill UTFMax b w).1.err = none
  · right
    by_contra hl
    have h0 : (readRuneFill UTFMax b w).1.buf = [] := by
      cases hb : (readRuneFill UTFMax b w).1.buf with
      | nil => rfl
      | cons a t => simp [hb] at hl
    apply h
    rw [h0]
    exact ⟨by decide, by decide, he, by simp [Reader.size, defaultBufSize]⟩
  · left; exact he

/-- The method `ReadRune` only reads from the world and keeps the size of the reader;
when it returns a rune the reader and the input together hold fewer bytes than
before. -/
theorem ReadRune_spec (b : Reader) (w : World) :
    (ReadRune b w).2.1.extra = b.extra
      ∧ Reads w (ReadRune b w).2.2
      ∧ ((ReadRune b w).1.2.2 = none →
          pending (ReadRune b w).2.2.input + (ReadRune b w).2.1.buf.length
            < pending w.input + b.buf.length) := by
  obtain ⟨h1, h2, h3⟩ := readRuneFill_spec UTFMax b w
  have hn := readRuneFill_some b w
  unfold ReadRune
  rcases hq : readRuneFill UTFMax b w with ⟨b1, w1⟩
  rw [hq] at h1 h2 h3 hn
  simp only at h1 h2 h3 hn ⊢
  by_cases h0 : b1.buf.length = 0
  · simp only [h0, if_true]
    refine ⟨h1, h2, ?_⟩
    intro he
    rcases hn with hn | hn
    · exact absurd he hn
    · omega
  · simp only [h0, if_false]
    have hne : b1.buf ≠ [] := fun h => h0 (by rw [h]; rfl)
    have hw := DecodeRune_width b1.buf hne
    split
    · refine ⟨h1, h2, fun _ => ?_⟩
      simp only [List.length_drop]
      omega
    · refine ⟨h1, h2, fun _ => ?_⟩
      simp only [List.length_drop]
      omega


/-! ## The confirmation loop returns -/

theorem Fprint_frame (s : String) (w : World) :
    (w.Fprint s).2.goos = w.goos ∧ (w.Fprint s).2.input = w.input
      ∧ (w.Fprint s).2.bufio = w.bufio ∧ (w.Fprint s).2.procs = w.procs
      ∧ (w.Fprint s).2.log = w.log
      ∧ (w.Fprint s).2.trace = w.trace ++ [Effect.write s (w.Fprint s).1] := by
  unfold World.Fprint
  cases w.writes <;> exact ⟨rfl, rfl, rfl, rfl, rfl, rfl⟩

theorem keep_frame (b : Reader) (w : World) :
    (w.keep b).goos = w.goos ∧ (w.keep b).input = w.input ∧ (w.keep b).writes = w.writes
      ∧ (w.keep b).procs = w.procs ∧ (w.keep b).log = w.log ∧ (w.keep b).trace = w.trace := by
  unfold World.keep
  cases w.bufio <;> exact ⟨rfl, rfl, rfl, rfl, rfl, rfl⟩

theorem keep_left (b : Reader) (w : World) :
    (w.keep b).left ≤ pending w.input + b.buf.length := by
  unfold World.left World.keep NewReader
  cases h : w.bufio with
  | none => simp [h]
  | some b0 => simp

@[simp] theorem Debug_left (s : String) (w : World) : (w.Debug s).left = w.left := rfl

@[simp] theorem Debug_trace (s : String) (w : World) : (w.Debug s).trace = w.trace := rfl

@[simp] theorem Debug_writes (s : String) (w : World) : (w.Debug s).writes = w.writes := rfl

theorem NewReader_congr (w w1 : World) (h : w1.bufio = w.bufio) : NewReader w1 = NewReader w := by
  unfold NewReader; rw [h]

/-- An iteration that does not return has taken something from the input. -/
theorem loopBody_left (w : World) (h : (loopBody w).1 = none) :
    (loopBody w).2.left < w.left := by
  obtain ⟨_, fi, fb, _, _, _⟩ := Fprint_frame prompt w
  unfold loopBody at h ⊢
  rcases hf : w.Fprint prompt with ⟨o, w1⟩
  rw [hf] at h fi fb
  simp only at fi fb
  cases o with
  | some e => simp at h
  | none =>
    simp only at h ⊢
    obtain ⟨_, _, hp⟩ := ReadRune_spec (NewReader w1) w1
    rcases hr : ReadRune (NewReader w1) w1 with ⟨⟨char, sz, e⟩, b2, w2⟩
    rw [hr] at h hp
    cases e with
    | some e => simp at h
    | none =>
      simp only at h hp ⊢
      have hp := hp trivial
      have hk := keep_left b2 w2
      have hl : w.left = pending w1.input + (NewReader w1).buf.length := by
        unfold World.left; rw [fi, NewReader_congr w w1 fb]
      split
      · rename_i hc; simp [hc] at h
      · split
        · rename_i hc hd; simp [hc, hd] at h
        · simp only [Debug_left]; omega

theorem confirmLoop_mono (f : Nat) : ∀ (w : World) (r : (Bool × Option GoError) × World),
    confirmLoop f w = some r → ∀ g, f ≤ g → confirmLoop g w = some r := by
  induction f with
  | zero => intro w r h; simp [confirmLoop] at h
  | succ f ih =>
    intro w r h g hg
    obtain ⟨g, rfl⟩ : ∃ g', g = g' + 1 := ⟨g - 1, by omega⟩
    unfold confirmLoop at h ⊢
    rcases hb : loopBody w with ⟨o, w1⟩
    rw [hb] at h
    cases o with
    | some r1 => simpa using h
    | none => exact ih w1 r h g (by omega)

theorem confirmLoop_returns (f : Nat) : ∀ (w : World), w.left < f →
    ∃ r, confirmLoop f w = some r := by
  induction f with
  | zero => intro w h; omega
  | succ f ih =>
    intro w h
    unfold confirmLoop
    have hp := loopBody_left w
    rcases hb : loopBody w with ⟨o, w1⟩
    rw [hb] at hp
    cases o with
    | some r1 => exact ⟨_, rfl⟩
    | none => exact ih w1 (by have := hp rfl; simp only at this; omega)

/-- The function `getUserConfirmation` returns on every input and every writer. -/
theorem getUserConfirmation_returns (w : World) : ∃ r, getUserConfirmation w = some r :=
  confirmLoop_returns _ w (Nat.lt_succ_self _)

/-- The loop equation of `getUserConfirmation`: the result of the iteration that
returns, or else the call on the world the iteration leaves. -/
theorem getUserConfirmation_unfold (w : World) :
    getUserConfirmation w =
      match loopBody w with
      | (some r, w1) => some (r, w1)
      | (none, w1) => getUserConfirmation w1 := by
  have hp := loopBody_left w
  unfold getUserConfirmation
  rw [confirmLoop]
  rcases hb : loopBody w with ⟨o, w1⟩
  rw [hb] at hp
  cases o with
  | some r1 => rfl
  | none =>
    simp only
    have hlt : w1.left < w.left := hp rfl
    obtain ⟨r, hr⟩ := confirmLoop_returns (w1.left + 1) w1 (Nat.lt_succ_self _)
    rw [hr]
    exact confirmLoop_mono _ w1 r hr _ (by omega)


/-! ## One iteration of the confirmation loop -/

theorem Fprint_ok (s : String) (w : World) (h : w.writes.headD none = none) :
    w.Fprint s = (none, { w with writes := w.writes.tail,
                                 trace := w.trace ++ [Effect.write s none] }) := by
  obtain ⟨g, i, bf, ws, p, t, l⟩ := w
  cases ws with
  | nil => rfl
  | cons o ws => simp at h; subst h; rfl

theorem Fprint_fail (s : String) (w : World) (e : GoError) (ws : List (Option GoError))
    (h : w.writes = some e :: ws) :
    w.Fprint s = (some e, { w with writes := ws,
                                   trace := w.trace ++ [Effect.write s (some e)] }) := by
  obtain ⟨g, i, bf, ws', p, t, l⟩ := w
  simp at h; subst h; rfl

theorem Read_fits (w : World) (r : ReadResult) (rest : List ReadResult) (cap : Nat)
    (h : w.input = r :: rest) (hl : r.bytes.length ≤ cap) :
    w.Read cap = ((r.bytes, r.err),
      { w with input := rest, trace := w.trace ++ [Effect.read r.bytes r.err] }) := by
  obtain ⟨g, i, bf, ws', p, t, l⟩ := w
  simp at h; subst h
  simp [World.Read, hl]

theorem Read_nil (w : World) (cap : Nat) (h : w.input = []) :
    w.Read cap = (([], some GoError.EOF),
      { w with trace := w.trace ++ [Effect.read [] (some GoError.EOF)] }) := by
  obtain ⟨g, i, bf, ws', p, t, l⟩ := w
  simp at h; subst h
  rfl

/-- What `Read` does when the input still has a result scheduled. -/
theorem Read_cons (w : World) (r : ReadResult) (rest : List ReadResult) (cap : Nat)
    (h : w.input = r :: rest) :
    w.Read cap = ((r.bytes.take cap, if r.bytes.length ≤ cap then r.err else none),
      { w with
        input := if r.bytes.length ≤ cap then rest
          else { r with bytes := r.bytes.drop cap } :: rest,
        trace := w.trace ++ [Effect.read (r.bytes.take cap)
          (if r.bytes.length ≤ cap then r.err else none)] }) := by
  obtain ⟨g, i, bf, ws', p, t, l⟩ := w
  simp at h; subst h
  by_cases hl : r.bytes.length ≤ cap
  · simp [World.Read, hl, List.take_of_length_le hl]
  · simp [World.Read, hl]

/-- One `fill` is one `Read` as soon as that `Read` hands over a byte or an error. -/
theorem fill_read (b : Reader) (w : World)
    (h : (w.Read (b.size - b.buf.length)).1.1 ≠ []
      ∨ (w.Read (b.size - b.buf.length)).1.2 ≠ none) :
    fill b w
      = ({ b with buf := b.buf ++ (w.Read (b.size - b.buf.length)).1.1,
                  err := match (w.Read (b.size - b.buf.length)).1.2 with
                    | some e => some e
                    | none => b.err },
          (w.Read (b.size - b.buf.length)).2) := by
  unfold fill maxConsecutiveEmptyReads fillLoop
  rcases hq : w.Read (b.size - b.buf.length) with ⟨⟨bytes, e⟩, w1⟩
  rw [hq] at h
  cases e with
  | some e => rfl
  | none =>
    have hb : bytes ≠ [] := by simpa using h
    have : bytes.length > 0 := List.length_pos.mpr hb
    simp [this]

/-- The method `ReadRune` on an empty buffer with an error pending: that error, and
no `Read`. -/
theorem ReadRune_pending (b : Reader) (w : World) (e : GoError) (h0 : b.buf = [])
    (he : b.err = some e) :
    ReadRune b w = ((0, 0, some e), { b with err := none }, w) := by
  unfold ReadRune
  rw [readRuneFill_err _ _ _ (by rw [he]; simp)]
  simp [h0, he]

/-- The method `ReadRune` on an empty buffer with no error pending, when the `Read`
hands over bytes that begin with a full rune: that rune, after that one `Read`. -/
theorem ReadRune_first (b : Reader) (w : World) (h0 : b.buf = []) (he : b.err = none)
    (h : FullRune (w.Read b.size).1.1 = true) :
    ReadRune b w
      = ((firstRune (w.Read b.size).1.1, runeWidth (w.Read b.size).1.1, none),
          { b with buf := (w.Read b.size).1.1.drop (runeWidth (w.Read b.size).1.1),
                   err := (w.Read b.size).1.2 },
          (w.Read b.size).2) := by
  obtain ⟨x, buf, err⟩ := b
  simp only at h0 he
  subst h0 he
  have hne := FullRune_ne_nil _ h
  have hf := fill_read ⟨x, [], none⟩ w (by simpa using Or.inl hne)
  simp only [List.length_nil, Nat.sub_zero, List.nil_append] at hf
  have hlen : (w.Read (Reader.size ⟨x, [], none⟩)).1.1.length ≠ 0 :=
    fun h0 => hne (List.length_eq_zero.mp h0)
  unfold ReadRune UTFMax readRuneFill
  have hc : ((⟨x, [], none⟩ : Reader).buf.length < UTFMax
      ∧ FullRune (⟨x, [], none⟩ : Reader).buf = false ∧ (⟨x, [], none⟩ : Reader).err = none
      ∧ (⟨x, [], none⟩ : Reader).buf.length < (⟨x, [], none⟩ : Reader).size) :=
    ⟨by simp [UTFMax], by simp [FullRune], rfl, by simp [Reader.size, defaultBufSize]⟩
  rw [if_pos hc, hf]
  simp only
  unfold readRuneFill
  simp only [h, Bool.true_eq_false, false_and, and_false, if_false, hlen, firstRune, runeWidth]
  cases (w.Read (Reader.size ⟨x, [], none⟩)).1.2 <;> (split <;> rfl)

/-- The method `ReadRune` on an empty buffer with no error pending, when the `Read`
hands over no byte and an error: that error, after that one `Read`. -/
theorem ReadRune_fail (b : Reader) (w : World) (e : GoError) (h0 : b.buf = [])
    (he : b.err = none) (h : (w.Read b.size).1 = ([], some e)) :
    ReadRune b w = ((0, 0, some e), b, (w.Read b.size).2) := by
  obtain ⟨x, buf, err⟩ := b
  simp only at h0 he
  subst h0 he
  have hf := fill_read ⟨x, [], none⟩ w (by
    simp only [List.length_nil, Nat.sub_zero]; rw [h]; simp)
  simp only [List.length_nil, Nat.sub_zero, List.nil_append] at hf
  unfold ReadRune UTFMax readRuneFill
  have hc : ((⟨x, [], none⟩ : Reader).buf.length < UTFMax
      ∧ FullRune (⟨x, [], none⟩ : Reader).buf = false ∧ (⟨x, [], none⟩ : Reader).err = none
      ∧ (⟨x, [], none⟩ : Reader).buf.length < (⟨x, [], none⟩ : Reader).size) :=
    ⟨by simp [UTFMax], by simp [FullRune], rfl, by simp [Reader.size, defaultBufSize]⟩
  rw [if_pos hc, hf, h]
  simp only
  rw [readRuneFill_err _ _ _ (by simp)]
  simp


theorem NewReader_none (w : World) (h : w.bufio = none) : NewReader w = ⟨0, [], none⟩ := by
  unfold NewReader; rw [h]

theorem NewReader_some (w : World) (b : Reader) (h : w.bufio = some b) : NewReader w = b := by
  unfold NewReader; rw [h]

theorem keep_none (b : Reader) (w : World) (h : w.bufio = none) : w.keep b = w := by
  unfold World.keep; rw [h]

theorem keep_some (b b0 : Reader) (w : World) (h : w.bufio = some b0) :
    w.keep b = { w with bufio := some b } := by
  unfold World.keep; rw [h]

theorem Read_bufio (cap : Nat) (w : World) : (w.Read cap).2.bufio = w.bufio :=
  (Read_reads cap w).2.1

theorem size_new : Reader.size ⟨0, [], none⟩ = defaultBufSize := rfl

/-- An iteration whose write of the prompt fails returns that error, with the input
untouched. -/
theorem loopBody_write_fail (w : World) (e : GoError) (ws : List (Option GoError))
    (h : w.writes = some e :: ws) :
    loopBody w = (some (false, some e),
      { w with writes := ws, trace := w.trace ++ [Effect.write prompt (some e)] }) := by
  unfold loopBody
  rw [Fprint_fail prompt w e ws h]

/-- How an iteration decides on the rune `ReadRune` has returned. -/
theorem decide_rune (char : Nat) (w : World) :
    (if char = 10 ∨ char = 13 ∨ char = 89 ∨ char = 121 then
        (some (true, none), w.Debug "User confirmed")
      else if char = 78 ∨ char = 110 then
        (some (false, none), w.Debug "User denied")
      else
        (none, w.Debug
          ("User entered unrecognised input for confirmation: " ++ runeString char)))
    = (if affirmative char = true then
        ((some (true, none) : Option (Bool × Option GoError)), w.Debug "User confirmed")
      else if recognised char = true then (some (false, none), w.Debug "User denied")
      else (none, w.Debug (unrecognisedLine char))) := by
  simp only [affirmative, recognised, unrecognisedLine, List.mem_cons, List.mem_singleton,
    List.mem_nil_iff, or_false, decide_eq_true_eq]
  by_cases ha : char = 10 ∨ char = 13 ∨ char = 89 ∨ char = 121
  · rw [if_pos ha, if_pos ha]
  · rw [if_neg ha, if_neg ha]
    by_cases hn : char = 78 ∨ char = 110
    · rw [if_pos hn, if_pos (by tauto)]
    · rw [if_neg hn, if_neg (by tauto)]

/-- An iteration on an input that is wrapped in a new reader, whose write succeeds and
whose `Read` hands over bytes that begin with a full rune, decides on that rune
alone. -/
theorem loopBody_first (w w1 : World) (hb : w.bufio = none) (hw : w.writes.headD none = none)
    (h1 : w1 = { w with writes := w.writes.tail, trace := w.trace ++ [Effect.write prompt none] })
    (h : FullRune (w1.Read defaultBufSize).1.1 = true) :
    loopBody w =
      if affirmative (firstRune (w1.Read defaultBufSize).1.1) = true then
        (some (true, none), (w1.Read defaultBufSize).2.Debug "User confirmed")
      else if recognised (firstRune (w1.Read defaultBufSize).1.1) = true then
        (some (false, none), (w1.Read defaultBufSize).2.Debug "User denied")
      else
        (none, (w1.Read defaultBufSize).2.Debug
          (unrecognisedLine (firstRune (w1.Read defaultBufSize).1.1))) := by
  have hb1 : w1.bufio = none := by rw [h1]; exact hb
  unfold loopBody
  rw [Fprint_ok prompt w hw, ← h1]
  simp only
  rw [NewReader_none w1 hb1, ReadRune_first ⟨0, [], none⟩ w1 rfl rfl (by rw [size_new]; exact h)]
  simp only [size_new]
  rw [keep_none _ _ (by rw [Read_bufio]; exact hb1)]
  exact decide_rune _ _

/-- An iteration on an input that is wrapped in a new reader, whose write succeeds and
whose `Read` hands over no byte and an error, returns that error. -/
theorem loopBody_read_fail (w w1 : World) (e : GoError) (hb : w.bufio = none)
    (hw : w.writes.headD none = none)
    (h1 : w1 = { w with writes := w.writes.tail, trace := w.trace ++ [Effect.write prompt none] })
    (h : (w1.Read defaultBufSize).1 = ([], some e)) :
    loopBody w = (some (false, some e), (w1.Read defaultBufSize).2) := by
  have hb1 : w1.bufio = none := by rw [h1]; exact hb
  unfold loopBody
  rw [Fprint_ok prompt w hw, ← h1]
  simp only
  rw [NewReader_none w1 hb1, ReadRune_fail ⟨0, [], none⟩ w1 e rfl rfl (by rw [size_new]; exact h)]
  simp only [size_new]
  rw [keep_none _ _ (by rw [Read_bufio]; exact hb1)]

/-- An iteration on an input that is wrapped in a new reader, whose write succeeds and
whose `Read` finds the input at its end, or hands over no byte and an error, returns
that error. -/
theorem loopBody_no_byte (w : World) (e : GoError) (rest : List ReadResult)
    (hb : w.bufio = none) (hw : w.writes.headD none = none)
    (hin : (w.input = [] ∧ rest = [] ∧ e = GoError.EOF) ∨ w.input = ⟨[], some e⟩ :: rest) :
    loopBody w = (some (false, some e),
      { w with input := rest, writes := w.writes.tail,
               trace := w.trace ++ [Effect.write prompt none, Effect.read [] (some e)] }) := by
  rcases hin with ⟨h0, rfl, rfl⟩ | h1
  · have hq := Read_nil
      { w with writes := w.writes.tail, trace := w.trace ++ [Effect.write prompt none] }
      defaultBufSize h0
    rw [loopBody_read_fail w _ GoError.EOF hb hw rfl (by rw [hq]), hq]
    obtain ⟨g, i, bf, ws, p, t, l⟩ := w
    simp at h0; subst h0
    simp
  · have hq := Read_fits
      { w with writes := w.writes.tail, trace := w.trace ++ [Effect.write prompt none] }
      ⟨[], some e⟩ rest defaultBufSize h1 (by simp)
    rw [loopBody_read_fail w _ e hb hw rfl (by rw [hq]), hq]
    simp

/-- An iteration on an input that is wrapped in a new reader and that is handed, in one
`Read`, bytes that begin with a full rune which is not an answer: the loop goes round
again, the rest of those bytes is gone. -/
theorem loopBody_round (w : World) (r : ReadResult) (rest : List ReadResult)
    (hb : w.bufio = none)
    (hw : w.writes.headD none = none) (hin : w.input = r :: rest)
    (hfull : FullRune r.bytes = true) (hlen : r.bytes.length ≤ defaultBufSize)
    (hun : recognised (firstRune r.bytes) = false) :
    loopBody w = (none,
      { w with input := rest, writes := w.writes.tail,
               trace := w.trace ++ [Effect.write prompt none, Effect.read r.bytes r.err],
               log := w.log ++ [unrecognisedLine (firstRune r.bytes)] }) := by
  have hq := Read_fits
    { w with writes := w.writes.tail, trace := w.trace ++ [Effect.write prompt none] }
    r rest defaultBufSize hin hlen
  have haff : affirmative (firstRune r.bytes) = false := by
    simp only [recognised, affirmative, List.mem_cons, List.mem_singleton, List.mem_nil_iff,
      or_false, decide_eq_false_iff_not] at hun ⊢
    tauto
  rw [loopBody_first w _ hb hw rfl (by rw [hq]; exact hfull), hq]
  simp [haff, hun, World.Debug]

/-- An iteration on an input that is wrapped in a new reader and that is handed an
answer first returns the outcome of that answer. -/
theorem loopBody_answer (w : World) (c : Nat) (more : List Nat) (e : Option GoError)
    (rest : List ReadResult) (hb : w.bufio = none) (hw : w.writes.headD none = none)
    (hin : w.input = ⟨c :: more, e⟩ :: rest) (hc : recognised c = true) :
    ∃ w', loopBody w = (some (affirmative c, none), w')
      ∧ w'.trace = w.trace ++ [Effect.write prompt none,
          Effect.read ((c :: more).take defaultBufSize)
            (if (c :: more).length ≤ defaultBufSize then e else none)]
      ∧ w'.writes = w.writes.tail
      ∧ w'.input = (if (c :: more).length ≤ defaultBufSize then rest
          else ⟨(c :: more).drop defaultBufSize, e⟩ :: rest)
      ∧ w'.log = w.log ++ [if affirmative c = true then "User confirmed" else "User denied"]
      ∧ w'.bufio = none := by
  have hlt := recognised_lt c hc
  have hq := Read_cons
    { w with writes := w.writes.tail, trace := w.trace ++ [Effect.write prompt none] }
    ⟨c :: more, e⟩ rest defaultBufSize hin
  have hbs : (c :: more).take defaultBufSize = c :: more.take 4095 := by
    simp [defaultBufSize, List.take_succ_cons]
  simp only at hq
  have hfull : FullRune
      (({ w with writes := w.writes.tail,
                 trace := w.trace ++ [Effect.write prompt none] } : World).Read
        defaultBufSize).1.1 = true := by
    rw [hq, hbs]; exact FullRune_ascii c _ hlt
  rw [loopBody_first w _ hb hw rfl hfull, hq]
  simp only
  rw [hbs, firstRune_ascii c _ hlt, hc]
  by_cases ha : affirmative c = true
  · rw [if_pos ha, ha]
    exact ⟨_, rfl, by simp, rfl, rfl, by simp [World.Debug], hb⟩
  · rw [if_neg ha, if_pos rfl]
    have ha' : affirmative c = false := by simpa using ha
    rw [ha']
    exact ⟨_, rfl, by simp, rfl, rfl, by simp [World.Debug], hb⟩


/-! ## Iterations that go round again: an input wrapped in a new reader -/

theorem writes_ok_split (k : Nat) : ∀ (ws : List (Option GoError)),
    (∀ o ∈ ws.take (k + 1), o = none) →
    (∀ o ∈ ws.take k, o = none) ∧ (ws.drop k).headD none = none := by
  induction k with
  | zero =>
    intro ws h
    cases ws with
    | nil => simp
    | cons o ws => simpa using h
  | succ k ih =>
    intro ws h
    cases ws with
    | nil => simp
    | cons o ws =>
      have h0 : o = none := h o (by simp)
      have ht := ih ws (fun o' ho' => h o' (by
        simp only [List.take_succ_cons, List.mem_cons]; right; simpa using ho'))
      refine ⟨?_, by simpa using ht.2⟩
      intro o' ho'
      simp only [List.take_succ_cons, List.mem_cons] at ho'
      rcases ho' with rfl | ho'
      · exact h0
      · exact ht.1 o' ho'

/-- Iterations that are each handed bytes beginning with a full rune which is not an
answer leave `getUserConfirmation` where it started, on the input that remains. -/
theorem getUserConfirmation_rounds (chunks : List ReadResult) : ∀ (w : World)
    (tail : List ReadResult),
    w.bufio = none →
    w.input = chunks ++ tail →
    (∀ o ∈ w.writes.take chunks.length, o = none) →
    (∀ r ∈ chunks, FullRune r.bytes = true ∧ r.bytes.length ≤ defaultBufSize
      ∧ recognised (firstRune r.bytes) = false) →
    getUserConfirmation w = getUserConfirmation
      { w with input := tail, writes := w.writes.drop chunks.length,
               trace := w.trace ++ rounds chunks,
               log := w.log ++ chunks.map fun r => unrecognisedLine (firstRune r.bytes) } := by
  induction chunks with
  | nil =>
    intro w tail _ hin _ _
    obtain ⟨g, i, bf, ws, p, t, l⟩ := w
    simp at hin; subst hin
    simp [rounds]
  | cons r rs ih =>
    intro w tail hb hin hw hch
    obtain ⟨g, i, bf, ws, p, t, l⟩ := w
    simp only [List.cons_append] at hin
    have hr := hch r (List.mem_cons_self _ _)
    have hw0 : ws.headD none = none := by
      cases ws with
      | nil => rfl
      | cons o ws' => exact hw o (by simp)
    rw [getUserConfirmation_unfold,
      loopBody_round _ r (rs ++ tail) hb hw0 hin hr.1 hr.2.1 hr.2.2]
    simp only
    rw [ih _ tail (by simpa using hb) rfl ?_ (fun r' hr' => hch r' (List.mem_cons_of_mem _ hr'))]
    · congr 1
      cases ws with
      | nil => simp [rounds]
      | cons o ws' => simp [rounds]
    · intro o ho
      cases ws with
      | nil => simp at ho
      | cons o' ws' =>
        apply hw o
        simp only [List.length_cons, List.take_succ_cons, List.mem_cons]
        right
        simpa using ho

theorem prompts_append (t u : List Effect) : prompts (t ++ u) = prompts t + prompts u := by
  simp [prompts, List.count_append]

theorem prompts_rounds (chunks : List ReadResult) : prompts (rounds chunks) = chunks.length := by
  induction chunks with
  | nil => rfl
  | cons r rs ih =>
    simp only [prompts] at ih
    simp [rounds, prompts, List.count_cons, ih]


/-! ## An input that is itself a `bufio.Reader` -/

/-- Of two lists that begin the same list, the shorter begins the longer. -/
theorem prefix_of_append_eq {α : Type} (a b c d : List α) (h : a ++ b = c ++ d)
    (hl : c.length ≤ a.length) : ∃ u, a = c ++ u ∧ d = u ++ b := by
  rcases List.append_eq_append_iff.mp h with ⟨a', h1, h2⟩ | ⟨c', h1, h2⟩
  · have : a'.length = 0 := by
      have := congrArg List.length h1
      simp at this
      omega
    have ha' : a' = [] := List.length_eq_zero.mp this
    subst ha'
    exact ⟨[], by simpa using h1.symm, by simpa using h2.symm⟩
  · exact ⟨c', h1, h2⟩

theorem readRuneFill_succ (n : Nat) (b : Reader) (w : World)
    (h : b.buf.length < UTFMax ∧ FullRune b.buf = false ∧ b.err = none
      ∧ b.buf.length < b.size) :
    readRuneFill (n + 1) b w = readRuneFill n (fill b w).1 (fill b w).2 := by
  rw [readRuneFill, if_pos h]

theorem readRuneFill_stop (n : Nat) (b : Reader) (w : World) (h : FullRune b.buf = true) :
    readRuneFill n b w = (b, w) := by
  cases n with
  | zero => rfl
  | succ n => simp [readRuneFill, h]

/-- The filling loop of `ReadRune` on a reader that holds, or is about to be handed
without error, bytes that begin with the full rune `ch`: it stops with the buffer
beginning with a full rune, nothing of the bytes lost. -/
theorem readRuneFill_delivers (n : Nat) : ∀ (b : Reader) (w : World)
    (chunks rest : List ReadResult) (ch T : List Nat),
    b.err = none → w.input = chunks ++ rest →
    (∀ r ∈ chunks, r.bytes ≠ [] ∧ r.err = none) →
    b.buf ++ bytesOf chunks = ch ++ T → FullRune ch = true → ch.length ≤ n + b.buf.length →
    ∃ chunks1, (readRuneFill n b w).1.err = none
      ∧ (readRuneFill n b w).2.input = chunks1 ++ rest
      ∧ (∀ r ∈ chunks1, r.bytes ≠ [] ∧ r.err = none)
      ∧ (readRuneFill n b w).1.buf ++ bytesOf chunks1 = ch ++ T
      ∧ FullRune (readRuneFill n b w).1.buf = true := by
  induction n with
  | zero =>
    intro b w chunks rest ch T he hin hcl hs hfull hlen
    obtain ⟨u, hu, _⟩ := prefix_of_append_eq _ _ _ _ hs (by omega)
    exact ⟨chunks, he, hin, hcl, hs, by
      show FullRune b.buf = true
      rw [hu]; exact FullRune_append ch u hfull⟩
  | succ n ih =>
    intro b w chunks rest ch T he hin hcl hs hfull hlen
    by_cases hF : FullRune b.buf = true
    · rw [readRuneFill_stop _ _ _ hF]
      exact ⟨chunks, he, hin, hcl, hs, hF⟩
    · have hF' : FullRune b.buf = false := by simpa using hF
      have hshort : b.buf.length < UTFMax := by
        by_contra hc
        exact hF (FullRune_of_length _ (by omega))
      have hsize : b.buf.length < b.size := by
        unfold Reader.size defaultBufSize; unfold UTFMax at hshort; omega
      rw [readRuneFill_succ n b w ⟨hshort, hF', he, hsize⟩]
      cases chunks with
      | nil =>
        simp only [bytesOf, List.append_nil] at hs
        rw [hs] at hF
        exact absurd (FullRune_append ch T hfull) hF
      | cons r cs =>
        obtain ⟨hrb, hre⟩ := hcl r (List.mem_cons_self _ _)
        have hq := Read_cons w r (cs ++ rest) (b.size - b.buf.length) (by simpa using hin)
        have hcap : 0 < b.size - b.buf.length := by omega
        have htake : r.bytes.take (b.size - b.buf.length) ≠ [] := by
          cases hr : r.bytes with
          | nil => exact absurd hr hrb
          | cons a t =>
            obtain ⟨k, hk⟩ : ∃ k, b.size - b.buf.length = k + 1 := ⟨_, (Nat.succ_pred_eq_of_pos hcap).symm⟩
            rw [hk]; simp
        have hf := fill_read b w (by rw [hq]; exact Or.inl htake)
        rw [hq] at hf
        simp only [hre, ite_self] at hf
        rw [hf]
        simp only
        by_cases hfit : r.bytes.length ≤ b.size - b.buf.length
        · simp only [hfit, if_true]
          rw [List.take_of_length_le hfit]
          refine ih _ _ cs rest ch T he (by simp) (fun r' hr' => hcl r' (List.mem_cons_of_mem _ hr'))
            (by simpa [bytesOf, List.append_assoc] using hs) hfull ?_
          have : 0 < r.bytes.length := List.length_pos.mpr hrb
          simp only [List.length_append]
          omega
        · simp only [hfit, if_false]
          refine ih _ _ (⟨r.bytes.drop (b.size - b.buf.length), none⟩ :: cs) rest ch T he
            (by simp) ?_ ?_ hfull ?_
          · intro r' hr'
            rcases List.mem_cons.mp hr' with rfl | hr'
            · refine ⟨?_, rfl⟩
              simp only
              intro h0
              have := congrArg List.length h0
              simp at this
              omega
            · exact hcl r' (List.mem_cons_of_mem _ hr')
          · simp only [bytesOf, List.append_assoc] at hs ⊢
            rw [← List.append_assoc (r.bytes.take _), List.take_append_drop]
            exact hs
          · simp only [List.length_append, List.length_take]
            omega


/-- The method `ReadRune` in terms of its filling loop, when that loop leaves the
buffer beginning with a full rune. -/
theorem ReadRune_of_fill (b : Reader) (w : World)
    (h : FullRune (readRuneFill UTFMax b w).1.buf = true) :
    ReadRune b w = ((firstRune (readRuneFill UTFMax b w).1.buf,
        runeWidth (readRuneFill UTFMax b w).1.buf, none),
      { (readRuneFill UTFMax b w).1 with
        buf := (readRuneFill UTFMax b w).1.buf.drop (runeWidth (readRuneFill UTFMax b w).1.buf) },
      (readRuneFill UTFMax b w).2) := by
  have hne := FullRune_ne_nil _ h
  have hlen : (readRuneFill UTFMax b w).1.buf.length ≠ 0 :=
    fun h0 => hne (List.length_eq_zero.mp h0)
  unfold ReadRune
  rcases hq : readRuneFill UTFMax b w with ⟨b1, w1⟩
  rw [hq] at hlen
  simp only at hlen ⊢
  simp only [hlen, if_false, firstRune, runeWidth]
  split <;> rfl

/-- The method `ReadRune` on a reader that holds, or is about to be handed without
error, bytes that begin with the one whole character `ch`: the rune of `ch`, and
the bytes after `ch` are still to come. -/
theorem ReadRune_delivers (b : Reader) (w : World) (chunks rest : List ReadResult)
    (ch T : List Nat) (he : b.err = none) (hin : w.input = chunks ++ rest)
    (hcl : ∀ r ∈ chunks, r.bytes ≠ [] ∧ r.err = none)
    (hs : b.buf ++ bytesOf chunks = ch ++ T) (hfull : FullRune ch = true)
    (hwd : runeWidth ch = ch.length) :
    ∃ b2 w1 chunks1, ReadRune b w = ((firstRune ch, ch.length, none), b2, w1)
      ∧ b2.err = none ∧ w1.input = chunks1 ++ rest
      ∧ (∀ r ∈ chunks1, r.bytes ≠ [] ∧ r.err = none)
      ∧ b2.buf ++ bytesOf chunks1 = T ∧ Reads w w1 := by
  have hb4 := (runeWidth_bounds ch (FullRune_ne_nil ch hfull)).2.2
  obtain ⟨chunks1, e1, i1, c1, s1, f1⟩ := readRuneFill_delivers UTFMax b w chunks rest ch T
    he hin hcl hs hfull (by unfold UTFMax; omega)
  have hr := (readRuneFill_spec UTFMax b w).2.1
  rw [ReadRune_of_fill b w f1]
  have hb1 := runeWidth_bounds _ (FullRune_ne_nil _ f1)
  have hpre : ∃ u, (readRuneFill UTFMax b w).1.buf = ch ++ u ∧ T = u ++ bytesOf chunks1 := by
    by_cases hl : ch.length ≤ (readRuneFill UTFMax b w).1.buf.length
    · exact prefix_of_append_eq _ _ _ _ s1 hl
    · exfalso
      obtain ⟨v, hv, _⟩ := prefix_of_append_eq _ _ _ _ s1.symm (by omega)
      have hwv : runeWidth ch = runeWidth (readRuneFill UTFMax b w).1.buf := by
        rw [hv, runeWidth_append _ v f1]
      omega
  obtain ⟨u, hu, hT⟩ := hpre
  have hfr : firstRune (readRuneFill UTFMax b w).1.buf = firstRune ch := by
    rw [hu, firstRune_append ch u hfull]
  have hrw : runeWidth (readRuneFill UTFMax b w).1.buf = ch.length := by
    rw [hu, runeWidth_append ch u hfull, hwd]
  rw [hfr, hrw]
  refine ⟨_, _, chunks1, rfl, e1, i1, c1, ?_, hr⟩
  simp only
  rw [hu, List.drop_left, hT]


theorem Delivers_Debug (msg : String) (w : World) (s : List Nat) (rest : List ReadResult)
    (h : Delivers w s rest) : Delivers (w.Debug msg) s rest := h

theorem runeWidth_ascii (c : Nat) (bs : List Nat) (hc : c < 0x80) : runeWidth (c :: bs) = 1 := by
  simp [runeWidth, RuneSelf, hc]

/-- An iteration on an input that is itself a `bufio.Reader` and holds, or is about to
be handed without error, bytes that begin with the one whole character `ch`: the
iteration decides on the rune of `ch`, and the bytes after `ch` are still to come. -/
theorem loopBody_delivers (w : World) (ch T : List Nat) (rest : List ReadResult)
    (hd : Delivers w (ch ++ T) rest) (hw : w.writes.headD none = none)
    (hfull : FullRune ch = true) (hwd : runeWidth ch = ch.length) :
    ∃ w1 d, Delivers w1 T rest ∧ w1.goos = w.goos ∧ w1.procs = w.procs
      ∧ w1.writes = w.writes.tail ∧ w1.log = w.log
      ∧ w1.trace = w.trace ++ Effect.write prompt none :: d
      ∧ (∀ x ∈ d, Effect.isRead x = true)
      ∧ loopBody w =
          if affirmative (firstRune ch) = true then
            (some (true, none), w1.Debug "User confirmed")
          else if recognised (firstRune ch) = true then
            (some (false, none), w1.Debug "User denied")
          else (none, w1.Debug (unrecognisedLine (firstRune ch))) := by
  obtain ⟨b, chunks, hb, he, hin, hcl, hs⟩ := hd
  obtain ⟨b2, w2, chunks1, hr, e2, i2, c2, s2, r2⟩ := ReadRune_delivers b
    { w with writes := w.writes.tail, trace := w.trace ++ [Effect.write prompt none] }
    chunks rest ch T he hin hcl hs hfull hwd
  obtain ⟨g2, bf2, ws2, p2, l2, d, t2, a2⟩ := r2
  simp only at g2 bf2 ws2 p2 l2 t2
  refine ⟨{ w2 with bufio := some b2 }, d, ⟨b2, chunks1, rfl, e2, i2, c2, s2⟩, g2, p2, ws2, l2,
    by rw [t2]; simp, a2, ?_⟩
  unfold loopBody
  rw [Fprint_ok prompt w hw]
  simp only
  rw [NewReader_some _ b (by exact hb), hr]
  simp only
  rw [keep_some b2 b w2 (bf2.trans hb)]
  exact decide_rune _ _

/-- An iteration on an input that is itself a `bufio.Reader` with nothing buffered and
no error pending, whose `Read` finds the end of the input or no byte and an error:
that error is returned. -/
theorem loopBody_delivers_end (w : World) (e : GoError) (rest rest' : List ReadResult)
    (hd : Delivers w [] rest') (hw : w.writes.headD none = none)
    (hrest : (rest' = [] ∧ rest = [] ∧ e = GoError.EOF) ∨ rest' = ⟨[], some e⟩ :: rest) :
    loopBody w = (some (false, some e),
      { w with input := rest, writes := w.writes.tail,
               trace := w.trace ++ [Effect.write prompt none, Effect.read [] (some e)] })
      ∧ Delivers
          { w with input := rest, writes := w.writes.tail,
                   trace := w.trace ++ [Effect.write prompt none, Effect.read [] (some e)] }
          [] rest := by
  obtain ⟨b, chunks, hb, he, hin, hcl, hs⟩ := hd
  have hb0 : b.buf = [] := (List.append_eq_nil.mp hs).1
  have hc0 : chunks = [] := by
    cases chunks with
    | nil => rfl
    | cons r cs =>
      have := (List.append_eq_nil.mp hs).2
      simp only [bytesOf, List.append_eq_nil] at this
      exact absurd this.1 (hcl r (List.mem_cons_self _ _)).1
  subst hc0
  simp only [List.nil_append] at hin
  have hq : (({ w with writes := w.writes.tail,
                       trace := w.trace ++ [Effect.write prompt none] } : World).Read b.size)
      = (([], some e),
          { w with input := rest, writes := w.writes.tail,
                   trace := w.trace ++ [Effect.write prompt none, Effect.read [] (some e)] }) := by
    rcases hrest with ⟨h0, rfl, rfl⟩ | h1
    · rw [Read_nil _ _ (by simpa [h0] using hin)]
      simp
      rw [h0] at hin
      exact hin
    · rw [Read_fits _ ⟨[], some e⟩ rest _ (by simpa [h1] using hin) (by simp)]
      simp
  refine ⟨?_, ⟨b, [], hb, he, rfl, by simp, by simpa [bytesOf] using hb0⟩⟩
  unfold loopBody
  rw [Fprint_ok prompt w hw]
  simp only
  rw [NewReader_some _ b (by exact hb), ReadRune_fail b _ e hb0 he (by rw [hq]), hq]
  simp only
  rw [keep_some b b _ (by exact hb)]
  obtain ⟨g, i, bf, ws, p, t, l⟩ := w
  simp only at hb
  subst hb
  rfl

/-- An iteration on an input that is itself a `bufio.Reader` with nothing buffered and
an error pending: that error is returned and cleared, without a `Read`. -/
theorem loopBody_pending_err (w : World) (b : Reader) (e : GoError)
    (hb : w.bufio = some b) (hw : w.writes.headD none = none)
    (h0 : b.buf = []) (he : b.err = some e) :
    loopBody w = (some (false, some e),
      { w with bufio := some { b with err := none }, writes := w.writes.tail,
               trace := w.trace ++ [Effect.write prompt none] }) := by
  unfold loopBody
  rw [Fprint_ok prompt w hw]
  simp only
  rw [NewReader_some _ b (by exact hb), ReadRune_pending b _ e h0 he]
  simp only
  rw [keep_some _ b _ (by exact hb)]


theorem prompts_reads (d : List Effect) (h : ∀ x ∈ d, Effect.isRead x = true) : prompts d = 0 := by
  unfold prompts
  rw [List.count_eq_zero]
  intro hm
  have := h _ hm
  simp [Effect.isRead] at this

theorem isConfirm_of_isRead (x : Effect) (h : Effect.isRead x = true) :
    Effect.isConfirm x = true := by
  cases x <;> simp_all [Effect.isRead, Effect.isConfirm]

theorem affirmative_false (char : Nat) (h : recognised char = false) : affirmative char = false := by
  simp only [recognised, affirmative, List.mem_cons, List.mem_singleton, List.mem_nil_iff,
    or_false, decide_eq_false_iff_not] at h ⊢
  tauto

/-- Iterations on an input that is itself a `bufio.Reader` and that delivers whole
characters which are not answers: one iteration and one prompt for each, whatever
the pieces the bytes arrive in, and `getUserConfirmation` goes on with the bytes
that follow. -/
theorem getUserConfirmation_delivers_rounds (chars : List (List Nat)) : ∀ (w : World)
    (T : List Nat) (rest : List ReadResult),
    Delivers w (chars.flatten ++ T) rest →
    (∀ o ∈ w.writes.take chars.length, o = none) →
    (∀ ch ∈ chars, Unrecognised ch) →
    ∃ w1 d, getUserConfirmation w = getUserConfirmation w1 ∧ Delivers w1 T rest
      ∧ w1.goos = w.goos ∧ w1.procs = w.procs ∧ w1.writes = w.writes.drop chars.length
      ∧ w1.trace = w.trace ++ d ∧ (∀ x ∈ d, Effect.isConfirm x = true)
      ∧ prompts d = chars.length := by
  induction chars with
  | nil =>
    intro w T rest hd _ _
    exact ⟨w, [], rfl, by simpa using hd, rfl, rfl, rfl, by simp, by simp, rfl⟩
  | cons ch cs ih =>
    intro w T rest hd hw hch
    obtain ⟨hfull, hwd, hun⟩ := hch ch (List.mem_cons_self _ _)
    have hw0 : w.writes.headD none = none := by
      cases hws : w.writes with
      | nil => rfl
      | cons o ws' => rw [hws] at hw; exact hw o (by simp)
    have hd' : Delivers w (ch ++ (cs.flatten ++ T)) rest := by
      simpa [List.flatten_cons, List.append_assoc] using hd
    obtain ⟨w1, d1, dl, g1, p1, ws1, _, t1, a1, hb⟩ :=
      loopBody_delivers w ch (cs.flatten ++ T) rest hd' hw0 hfull hwd
    rw [affirmative_false _ hun, hun] at hb
    simp only [Bool.false_eq_true, if_false] at hb
    obtain ⟨w2, d2, e2, dl2, g2, p2, ws2, t2, a2, c2⟩ :=
      ih (w1.Debug (unrecognisedLine (firstRune ch))) T rest (Delivers_Debug _ _ _ _ dl) (by
        intro o ho
        rw [Debug_writes, ws1] at ho
        cases hws : w.writes with
        | nil => rw [hws] at ho; simp at ho
        | cons o' ws' =>
          rw [hws] at ho hw
          apply hw o
          simp only [List.length_cons, List.take_succ_cons, List.mem_cons]
          right
          simpa using ho)
        (fun c hc => hch c (List.mem_cons_of_mem _ hc))
    refine ⟨w2, Effect.write prompt none :: d1 ++ d2, ?_, dl2, g2.trans g1, p2.trans p1, ?_, ?_,
      ?_, ?_⟩
    · rw [getUserConfirmation_unfold, hb]
      exact e2
    · rw [ws2, Debug_writes, ws1]
      cases w.writes <;> simp
    · rw [t2, Debug_trace, t1]; simp
    · intro x hx
      simp only [List.cons_append, List.mem_cons, List.mem_append] at hx
      rcases hx with rfl | hx | hx
      · simp [Effect.isConfirm]
      · exact isConfirm_of_isRead x (a1 x hx)
      · exact a2 x hx
    · have : prompts (Effect.write prompt none :: d1 ++ d2)
          = prompts [Effect.write prompt none] + prompts d1 + prompts d2 := by
        rw [← prompts_append, ← prompts_append]; simp
      rw [this, prompts_reads d1 a1, c2]
      simp [prompts, List.count_cons]
      omega


/-! ## What reading and prompting leave untouched -/

theorem Extends_trans {p : Effect → Bool} {w w1 w2 : World} (h1 : Extends p w w1)
    (h2 : Extends p w1 w2) : Extends p w w2 := by
  obtain ⟨g1, p1, d1, t1, a1⟩ := h1
  obtain ⟨g2, p2, d2, t2, a2⟩ := h2
  refine ⟨g2.trans g1, p2.trans p1, d1 ++ d2, by rw [t2, t1, List.append_assoc], ?_⟩
  intro x hx
  rcases List.mem_append.mp hx with h | h
  · exact a1 x h
  · exact a2 x h

/-- One iteration writes the prompt, then only reads; when it does not return an
error the prompt was written in full. -/
theorem loopBody_extends (w : World) :
    (loopBody w).2.goos = w.goos ∧ (loopBody w).2.procs = w.procs
      ∧ ∃ o d, (loopBody w).2.trace = w.trace ++ Effect.write prompt o :: d
        ∧ (∀ x ∈ d, Effect.isRead x = true)
        ∧ (∀ b e, (loopBody w).1 = some (b, some e) → b = false)
        ∧ ((∀ b e, (loopBody w).1 ≠ some (b, some e)) → o = none) := by
  obtain ⟨hg, _, _, hp, _, ht⟩ := Fprint_frame prompt w
  unfold loopBody
  rcases hf : w.Fprint prompt with ⟨o, w1⟩
  rw [hf] at hg hp ht
  simp only at hg hp ht
  cases o with
  | some e =>
    refine ⟨hg, hp, some e, [], ht, by simp, ?_, ?_⟩
    · intro b e' h; simp at h; exact h.1
    · intro h; exact absurd rfl (h false e)
  | none =>
    simp only
    obtain ⟨_, ⟨rg, _, _, rp, _, d, rt, rd⟩, _⟩ := ReadRune_spec (NewReader w1) w1
    rcases hr : ReadRune (NewReader w1) w1 with ⟨⟨char, sz, e⟩, b2, w2⟩
    rw [hr] at rg rp rt
    simp only at rg rp rt
    obtain ⟨kg, _, _, kp, _, kt⟩ := keep_frame b2 w2
    have key : (w2.keep b2).goos = w.goos ∧ (w2.keep b2).procs = w.procs
        ∧ (w2.keep b2).trace = w.trace ++ Effect.write prompt none :: d := by
      refine ⟨kg.trans (rg.trans hg), kp.trans (rp.trans hp), ?_⟩
      rw [kt, rt, ht]; simp
    cases e with
    | some e =>
      refine ⟨key.1, key.2.1, none, d, key.2.2, rd, ?_, fun _ => rfl⟩
      intro b e' h; simp at h; exact h.1
    | none =>
      simp only
      split
      · refine ⟨key.1, key.2.1, none, d, key.2.2, rd, ?_, fun _ => rfl⟩
        intro b e' h; simp at h
      · split
        · refine ⟨key.1, key.2.1, none, d, key.2.2, rd, ?_, fun _ => rfl⟩
          intro b e' h; simp at h
        · refine ⟨key.1, key.2.1, none, d, key.2.2, rd, ?_, fun _ => rfl⟩
          intro b e' h; simp at h

/-- The loop of `getUserConfirmation` only writes the prompt and reads; it returns
false with every error, and without error only after a prompt written in full. -/
theorem confirmLoop_extends (f : Nat) : ∀ (w w1 : World) (b : Bool) (e : Option GoError),
    confirmLoop f w = some ((b, e), w1) →
    Extends Effect.isConfirm w w1
      ∧ (e ≠ none → b = false)
      ∧ (e = none → ∃ d, w1.trace = w.trace ++ d ∧ Effect.write prompt none ∈ d) := by
  induction f with
  | zero => intro w w1 b e h; simp [confirmLoop] at h
  | succ f ih =>
    intro w w1 b e h
    obtain ⟨hg, hp, o, d, ht, hd, herr, hok⟩ := loopBody_extends w
    have hstep : Extends Effect.isConfirm w (loopBody w).2 := by
      refine ⟨hg, hp, _, ht, ?_⟩
      intro x hx
      rcases List.mem_cons.mp hx with rfl | hx
      · simp [Effect.isConfirm]
      · exact isConfirm_of_isRead x (hd x hx)
    unfold confirmLoop at h
    rcases hb : loopBody w with ⟨r, w2⟩
    rw [hb] at h hstep ht herr hok
    simp only at hstep ht herr hok
    cases r with
    | some r =>
      simp only [Option.some.injEq, Prod.mk.injEq] at h
      obtain ⟨rfl, rfl⟩ := h
      refine ⟨hstep, ?_, ?_⟩
      · intro he
        cases e with
        | none => exact absurd rfl he
        | some e => exact herr b e rfl
      · intro he
        subst he
        have ho : o = none := hok (by intro b' e' h'; simp at h')
        subst ho
        exact ⟨_, ht, by simp⟩
    | none =>
      simp only at h
      obtain ⟨h1, h2, h3⟩ := ih w2 w1 b e h
      refine ⟨Extends_trans hstep h1, h2, ?_⟩
      intro he
      obtain ⟨d', hd', hm⟩ := h3 he
      exact ⟨Effect.write prompt o :: d ++ d', by rw [hd', ht]; simp, by simp [hm]⟩

theorem runs_append (t u : List Effect) : runs (t ++ u) = runs t ++ runs u := by
  induction t with
  | nil => rfl
  | cons x t ih => cases x <;> simp [runs, ih]

theorem runs_confirm (d : List Effect) (h : ∀ x ∈ d, Effect.isConfirm x = true) : runs d = [] := by
  induction d with
  | nil => rfl
  | cons x d ih =>
    have hx := h x (List.mem_cons_self _ _)
    have hd := ih (fun y hy => h y (List.mem_cons_of_mem _ hy))
    cases x <;> simp_all [runs, Effect.isConfirm]

theorem outputText_append (t u : List Effect) :
    outputText (t ++ u) = outputText t ++ outputText u := by
  induction t with
  | nil => rfl
  | cons x t ih =>
    cases x with
    | write s o => cases o <;> simp [outputText, ih]
    | read bs e => simp [outputText, ih]
    | run c r => simp [outputText, ih]

theorem outputText_confirm (d : List Effect) (h : ∀ x ∈ d, Effect.isConfirm x = true) :
    outputText d = List.replicate (prompts d) prompt := by
  induction d with
  | nil => rfl
  | cons x d ih =>
    have hx := h x (List.mem_cons_self _ _)
    have hd := ih (fun y hy => h y (List.mem_cons_of_mem _ hy))
    cases x with
    | write s o =>
      simp only [Effect.isConfirm, decide_eq_true_eq] at hx
      subst hx
      cases o with
      | none => simp [outputText, prompts, List.count_cons, hd, List.replicate_succ] at *
      | some e => simp [outputText, prompts, List.count_cons, hd] at *
    | read bs e => simp [outputText, prompts, List.count_cons, hd] at *
    | run c r => simp [Effect.isConfirm] at hx

theorem prompts_pos (d : List Effect) (h : Effect.write prompt none ∈ d) : 0 < prompts d :=
  List.count_pos_iff.mpr h

theorem getUserConfirmation_extends (w w1 : World) (b : Bool) (e : Option GoError)
    (h : getUserConfirmation w = some ((b, e), w1)) :
    Extends Effect.isConfirm w w1
      ∧ (e ≠ none → b = false)
      ∧ (e = none → ∃ d, w1.trace = w.trace ++ d ∧ Effect.write prompt none ∈ d) :=
  confirmLoop_extends _ w w1 b e h

theorem getUserConfirmation_runs (w w1 : World) (b : Bool) (e : Option GoError)
    (h : getUserConfirmation w = some ((b, e), w1)) : runs w1.trace = runs w.trace := by
  obtain ⟨⟨_, _, d, ht, hd⟩, _, _⟩ := getUserConfirmation_extends w w1 b e h
  rw [ht, runs_append, runs_confirm d hd, List.append_nil]

/-- The one process `executeShellCommand` runs and the error it returns. -/
theorem executeShellCommand_run (ctx : Nat) (command : String) (w : World) :
    ∃ res, (executeShellCommand ctx command w).1 = res.err
      ∧ (executeShellCommand ctx command w).2.trace = w.trace ++ [Effect.run
          ⟨ctx, if w.goos = "windows" then "cmd" else "bash",
            [if w.goos = "windows" then "/C" else "-c", command]⟩ res] := by
  obtain ⟨g, i, bf, ws, p, t, l⟩ := w
  unfold executeShellCommand
  by_cases hg : g = "windows"
  · simp only [hg, if_true, World.Debug, World.Run]
    cases p with
    | nil => exact ⟨⟨"", none⟩, rfl, rfl⟩
    | cons r p =>
      obtain ⟨out, e⟩ := r
      cases e with
      | none => exact ⟨⟨out, none⟩, rfl, rfl⟩
      | some e => exact ⟨⟨out, some e⟩, rfl, rfl⟩
  · simp only [hg, if_false, World.Debug, World.Run]
    cases p with
    | nil => exact ⟨⟨"", none⟩, rfl, rfl⟩
    | cons r p =>
      obtain ⟨out, e⟩ := r
      cases e with
      | none => exact ⟨⟨out, none⟩, rfl, rfl⟩
      | some e => exact ⟨⟨out, some e⟩, rfl, rfl⟩


/-! ## The confirmation prompt: answers -/

theorem recognised_of_mem (c : Nat) (hc : c ∈ [89, 121, 13, 10, 78, 110]) :
    recognised c = true := by
  simp only [recognised, List.mem_cons, List.mem_singleton, List.mem_nil_iff, or_false,
    decide_eq_true_eq] at hc ⊢
  tauto

theorem affirmative_eq (c : Nat) : affirmative c = decide (c ∈ [89, 121, 13, 10]) := by
  simp only [affirmative, List.mem_cons, List.mem_singleton, List.mem_nil_iff, or_false,
    decide_eq_decide]
  tauto

/-- An iteration on an input that is itself a `bufio.Reader` and delivers an answer
first returns the outcome of that answer; the bytes after it are still to come. -/
theorem loopBody_delivers_answer (w : World) (c : Nat) (more : List Nat)
    (rest : List ReadResult) (hd : Delivers w (c :: more) rest)
    (hw : w.writes.headD none = none) (hc : recognised c = true) :
    ∃ w1 d, loopBody w = (some (affirmative c, none), w1) ∧ Delivers w1 more rest
      ∧ w1.trace = w.trace ++ Effect.write prompt none :: d
      ∧ (∀ x ∈ d, Effect.isRead x = true) := by
  have hlt := recognised_lt c hc
  obtain ⟨w1, d, dl, _, _, _, _, t1, a1, hb⟩ := loopBody_delivers w [c] more rest
    (by simpa using hd) hw (FullRune_ascii c [] hlt) (runeWidth_ascii c [] hlt)
  rw [firstRune_ascii c [] hlt, hc] at hb
  by_cases ha : affirmative c = true
  · rw [if_pos ha] at hb
    exact ⟨_, d, by rw [hb, ha], Delivers_Debug _ _ _ _ dl, by rw [Debug_trace, t1], a1⟩
  · rw [if_neg ha, if_pos rfl] at hb
    have ha' : affirmative c = false := by simpa using ha
    exact ⟨_, d, by rw [hb, ha'], Delivers_Debug _ _ _ _ dl, by rw [Debug_trace, t1], a1⟩

theorem prompts_step (t d : List Effect) (h : ∀ x ∈ d, Effect.isRead x = true) :
    prompts (t ++ Effect.write prompt none :: d) = prompts t + 1 := by
  have : t ++ Effect.write prompt none :: d = t ++ [Effect.write prompt none] ++ d := by simp
  rw [this, prompts_append, prompts_append, prompts_reads d h]
  simp [prompts, List.count_cons]

/-- C1: on an input whose first character `c` is `Y`, `y`, carriage return, newline,
`N` or `n`, with a writer whose next write succeeds, `getUserConfirmation` returns
without error after one write of the prompt; the result is true for `Y`, `y`,
carriage return and newline and false for `N` and `n`, whatever follows `c`.  On an
input that is wrapped in a new reader the prompt is followed by the one `Read` that
hands over `c`, whatever follows `c` in that `Read` and in the rest of the input.
On an input that is itself a `bufio.Reader` of at least 4096 bytes, `c` is taken
from its buffer or from what it is handed, and the bytes after `c` stay to be
delivered. -/
theorem getUserConfirmation_first_answer (w : World) (c : Nat) (more : List Nat)
    (e : Option GoError) (rest : List ReadResult)
    (hw : w.writes.headD none = none)
    (hc : c ∈ [89, 121, 13, 10, 78, 110]) :
    (w.bufio = none → w.input = ⟨c :: more, e⟩ :: rest →
      ∃ w', getUserConfirmation w = some ((decide (c ∈ [89, 121, 13, 10]), none), w')
        ∧ w'.trace = w.trace ++ [Effect.write prompt none,
            Effect.read ((c :: more).take defaultBufSize)
              (if (c :: more).length ≤ defaultBufSize then e else none)]
        ∧ prompts w'.trace = prompts w.trace + 1
        ∧ w'.input = (if (c :: more).length ≤ defaultBufSize then rest
            else ⟨(c :: more).drop defaultBufSize, e⟩ :: rest))
    ∧ (Delivers w (c :: more) rest →
      ∃ w' d, getUserConfirmation w = some ((decide (c ∈ [89, 121, 13, 10]), none), w')
        ∧ w'.trace = w.trace ++ Effect.write prompt none :: d
        ∧ (∀ x ∈ d, Effect.isRead x = true)
        ∧ prompts w'.trace = prompts w.trace + 1
        ∧ Delivers w' more rest) := by
  have hrec := recognised_of_mem c hc
  refine ⟨?_, ?_⟩
  · intro hb hin
    obtain ⟨w', hl, ht, _, hi, _⟩ := loopBody_answer w c more e rest hb hw hin hrec
    refine ⟨w', ?_, ht, ?_, hi⟩
    · rw [getUserConfirmation_unfold, hl, affirmative_eq]
    · rw [ht, prompts_append]
      simp [prompts, List.count_cons]
  · intro hd
    obtain ⟨w1, d, hl, dl, t1, a1⟩ := loopBody_delivers_answer w c more rest hd hw hrec
    refine ⟨w1, d, ?_, t1, a1, ?_, dl⟩
    · rw [getUserConfirmation_unfold, hl, affirmative_eq]
    · rw [t1, prompts_step _ _ a1]

theorem getUserConfirmation_first_answer_witness :
    (∃ w', getUserConfirmation
          ⟨"linux", [⟨[110, 10], none⟩, ⟨[121], none⟩], none, [], [], [], []⟩
        = some ((decide (110 ∈ [89, 121, 13, 10]), none), w')
      ∧ w'.trace = [] ++ [Effect.write prompt none,
          Effect.read (([110, 10] : List Nat).take defaultBufSize)
            (if ([110, 10] : List Nat).length ≤ defaultBufSize then none else none)]
      ∧ prompts w'.trace = prompts [] + 1
      ∧ w'.input = (if ([110, 10] : List Nat).length ≤ defaultBufSize then [⟨[121], none⟩]
          else ⟨([110, 10] : List Nat).drop defaultBufSize, none⟩ :: [⟨[121], none⟩]))
    ∧ (∃ w' d, getUserConfirmation
          ⟨"linux", [⟨[110, 10], none⟩, ⟨[121], none⟩], some ⟨0, [], none⟩, [], [], [], []⟩
        = some ((decide (110 ∈ [89, 121, 13, 10]), none), w')
      ∧ w'.trace = [] ++ Effect.write prompt none :: d
      ∧ (∀ x ∈ d, Effect.isRead x = true)
      ∧ prompts w'.trace = prompts [] + 1
      ∧ Delivers w' [10] [⟨[121], none⟩]) := by
  have h1 := (getUserConfirmation_first_answer
    ⟨"linux", [⟨[110, 10], none⟩, ⟨[121], none⟩], none, [], [], [], []⟩
    110 [10] none [⟨[121], none⟩] rfl (by decide)).1 rfl rfl
  have h2 := (getUserConfirmation_first_answer
    ⟨"linux", [⟨[110, 10], none⟩, ⟨[121], none⟩], some ⟨0, [], none⟩, [], [], [], []⟩
    110 [10] none [⟨[121], none⟩] rfl (by decide)).2
    ⟨⟨0, [], none⟩, [⟨[110, 10], none⟩], rfl, rfl, rfl, by decide, rfl⟩
  exact ⟨h1, h2⟩


/-- C2 fails as stated: when one `Read` of a reader that is not a `bufio.Reader` hands
over the three characters `x`, `q`, `y` together (a strings reader over "xqy"), the
two unrecognised characters are followed by a recognised one, yet
`getUserConfirmation` returns the end-of-file error, not the outcome of `y`, after
two prompts, not three. -/
theorem getUserConfirmation_xqy_in_one_read :
    (getUserConfirmation ⟨"linux", [⟨[120, 113, 121], none⟩], none, [], [], [], []⟩).map
        (fun r => (r.1, prompts r.2.trace))
      = some ((false, some GoError.EOF), 2) := by
  decide

/-- C2, amended: `k` unrecognised characters followed by a recognised character `c`
give `k + 1` prompts and, without error, the outcome of `c`, the first `k + 1`
writes succeeding, in two cases.  When the input is itself a `bufio.Reader` of at
least 4096 bytes: for every such sequence of characters, whatever the non-empty
pieces its bytes are handed over in without error, and the bytes after `c` stay to be
delivered.  When the input is any other reader: if each of the first `k` calls of
`Read` hands over at most 4096 bytes that begin with a full unrecognised character
(as when the characters arrive one per `Read`) and the next `Read` begins with `c`;
the prompt is then written once per `Read`. -/
theorem getUserConfirmation_after_unrecognised (w : World) (c : Nat) (more : List Nat)
    (rest : List ReadResult) (hc : c ∈ [89, 121, 13, 10, 78, 110]) :
    (∀ chars : List (List Nat),
      (∀ o ∈ w.writes.take (chars.length + 1), o = none) →
      Delivers w (chars.flatten ++ c :: more) rest →
      (∀ ch ∈ chars, Unrecognised ch) →
      ∃ w', getUserConfirmation w = some ((decide (c ∈ [89, 121, 13, 10]), none), w')
        ∧ prompts w'.trace = prompts w.trace + chars.length + 1
        ∧ Delivers w' more rest)
    ∧ (∀ (chunks : List ReadResult) (e : Option GoError),
      w.bufio = none →
      (∀ o ∈ w.writes.take (chunks.length + 1), o = none) →
      w.input = chunks ++ ⟨c :: more, e⟩ :: rest →
      (∀ r ∈ chunks, FullRune r.bytes = true ∧ r.bytes.length ≤ defaultBufSize
        ∧ recognised (firstRune r.bytes) = false) →
      ∃ w', getUserConfirmation w = some ((decide (c ∈ [89, 121, 13, 10]), none), w')
        ∧ w'.trace = w.trace ++ rounds chunks ++ [Effect.write prompt none,
            Effect.read ((c :: more).take defaultBufSize)
              (if (c :: more).length ≤ defaultBufSize then e else none)]
        ∧ prompts w'.trace = prompts w.trace + chunks.length + 1) := by
  have hrec := recognised_of_mem c hc
  refine ⟨?_, ?_⟩
  · intro chars hw hd hch
    obtain ⟨hw1, hw2⟩ := writes_ok_split chars.length w.writes hw
    obtain ⟨w1, d1, e1, dl1, _, _, ws1, t1, _, c1⟩ :=
      getUserConfirmation_delivers_rounds chars w (c :: more) rest hd hw1 hch
    obtain ⟨w2, d2, hl, dl2, t2, a2⟩ :=
      loopBody_delivers_answer w1 c more rest dl1 (by rw [ws1]; exact hw2) hrec
    refine ⟨w2, ?_, ?_, dl2⟩
    · rw [e1, getUserConfirmation_unfold, hl, affirmative_eq]
    · rw [t2, prompts_step _ _ a2, t1, prompts_append, c1]
  · intro chunks e hb hw hin hch
    obtain ⟨hw1, hw2⟩ := writes_ok_split chunks.length w.writes hw
    rw [getUserConfirmation_rounds chunks w _ hb hin hw1 hch, getUserConfirmation_unfold]
    obtain ⟨w', hl, ht, _, _, _⟩ := loopBody_answer
      { w with input := ⟨c :: more, e⟩ :: rest, writes := w.writes.drop chunks.length,
               trace := w.trace ++ rounds chunks,
               log := w.log ++ chunks.map fun r => unrecognisedLine (firstRune r.bytes) }
      c more e rest hb hw2 rfl hrec
    rw [hl, affirmative_eq]
    refine ⟨w', rfl, ht, ?_⟩
    rw [ht, prompts_append, prompts_append, prompts_rounds]
    simp [prompts, List.count_cons]

theorem getUserConfirmation_after_unrecognised_witness :
    (∃ w', getUserConfirmation
          ⟨"linux", [⟨[120, 113, 121], none⟩], some ⟨0, [], none⟩, [], [], [], []⟩
        = some ((decide (121 ∈ [89, 121, 13, 10]), none), w')
      ∧ prompts w'.trace = prompts [] + [[120], [113]].length + 1
      ∧ Delivers w' [] [])
    ∧ (∃ w', getUserConfirmation
          ⟨"linux", [⟨[120], none⟩, ⟨[113], none⟩] ++ ⟨[121], none⟩ :: [], none, [], [], [], []⟩
        = some ((decide (121 ∈ [89, 121, 13, 10]), none), w')
      ∧ w'.trace = [] ++ rounds [⟨[120], none⟩, ⟨[113], none⟩] ++ [Effect.write prompt none,
          Effect.read (([121] : List Nat).take defaultBufSize)
            (if ([121] : List Nat).length ≤ defaultBufSize then none else none)]
      ∧ prompts w'.trace
          = prompts [] + [(⟨[120], none⟩ : ReadResult), ⟨[113], none⟩].length + 1) := by
  have h1 := (getUserConfirmation_after_unrecognised
    ⟨"linux", [⟨[120, 113, 121], none⟩], some ⟨0, [], none⟩, [], [], [], []⟩
    121 [] [] (by decide)).1 [[120], [113]] (by decide)
    ⟨⟨0, [], none⟩, [⟨[120, 113, 121], none⟩], rfl, rfl, rfl, by decide, rfl⟩
    (by
      intro ch hch
      simp only [List.mem_cons, List.mem_singleton, List.mem_nil_iff, or_false] at hch
      rcases hch with rfl | rfl <;> exact ⟨by decide, by decide, by decide⟩)
  have h2 := (getUserConfirmation_after_unrecognised
    ⟨"linux", [⟨[120], none⟩, ⟨[113], none⟩] ++ ⟨[121], none⟩ :: [], none, [], [], [], []⟩
    121 [] [] (by decide)).2 [⟨[120], none⟩, ⟨[113], none⟩] none rfl (by decide) rfl (by decide)
  exact ⟨h1, h2⟩

/-! ## The gated executor -/

/-- C3 fails as stated: on an empty input the confirmation fails with the end-of-file
error and `ExecuteCommandWithConfirmation` returns that error, not success. -/
theorem ExecuteCommandWithConfirmation_empty_input :
    (getUserConfirmation ⟨"linux", [], none, [], [], [], []⟩).map (fun r => r.1)
        = some (false, some GoError.EOF)
      ∧ (ExecuteCommandWithConfirmation 0 "echo hello" ⟨"linux", [], none, [], [], [], []⟩).map
          (fun r => (r.1, runs r.2.trace))
        = some (some GoError.EOF, []) := by
  decide

/-- C3, amended: if confirmation fails with an error, `ExecuteCommandWithConfirmation`
never executes the command and returns that error: whenever `getUserConfirmation`
returns an error, the gated function returns the same error in the same world, and
no process has been run. -/
theorem ExecuteCommandWithConfirmation_confirmation_error (ctx : Nat) (command : String)
    (w w1 : World) (b : Bool) (err : GoError)
    (h : getUserConfirmation w = some ((b, some err), w1)) :
    ExecuteCommandWithConfirmation ctx command w = some (some err, w1)
      ∧ runs w1.trace = runs w.trace := by
  refine ⟨?_, getUserConfirmation_runs w w1 b _ h⟩
  unfold ExecuteCommandWithConfirmation
  rw [h]

theorem ExecuteCommandWithConfirmation_confirmation_error_witness :
    ExecuteCommandWithConfirmation 7 "echo hello"
        ⟨"linux", [⟨[], some (GoError.other "closed")⟩], none, [], [], [], []⟩
        = some (some (GoError.other "closed"),
            ⟨"linux", [], none, [], [], [Effect.write prompt none,
              Effect.read [] (some (GoError.other "closed"))], []⟩)
      ∧ runs ([Effect.write prompt none, Effect.read [] (some (GoError.other "closed"))])
        = runs [] := by
  have h := ExecuteCommandWithConfirmation_confirmation_error 7 "echo hello"
    ⟨"linux", [⟨[], some (GoError.other "closed")⟩], none, [], [], [], []⟩
    ⟨"linux", [], none, [], [], [Effect.write prompt none,
      Effect.read [] (some (GoError.other "closed"))], []⟩ false (GoError.other "closed")
    (by decide)
  exact h

/-- C4: when confirmation is denied (`getUserConfirmation` returns false and no error,
as on the input "n\n"), `ExecuteCommandWithConfirmation` returns nil in the world
the confirmation left, whatever the command and the context: no process has been
run, and all that reached the output stream is the prompt, written at least once. -/
theorem ExecuteCommandWithConfirmation_denied (ctx : Nat) (command : String) (w w1 : World)
    (h : getUserConfirmation w = some ((false, none), w1)) :
    ExecuteCommandWithConfirmation ctx command w = some (none, w1)
      ∧ runs w1.trace = runs w.trace
      ∧ ∃ n, 0 < n ∧ outputText w1.trace = outputText w.trace ++ List.replicate n prompt := by
  refine ⟨?_, getUserConfirmation_runs w w1 _ _ h, ?_⟩
  · unfold ExecuteCommandWithConfirmation
    rw [h]
    simp
  · obtain ⟨⟨_, _, d, ht, hd⟩, _, hp⟩ := getUserConfirmation_extends w w1 _ _ h
    obtain ⟨d', ht', hm⟩ := hp rfl
    have hdd : d' = d := List.append_cancel_left (ht'.symm.trans ht)
    subst hdd
    exact ⟨prompts d', prompts_pos d' hm, by rw [ht, outputText_append, outputText_confirm d' hd]⟩

theorem ExecuteCommandWithConfirmation_denied_witness :
    ExecuteCommandWithConfirmation 7 "echo hello"
        ⟨"linux", [⟨[110, 10], none⟩], none, [], [], [], []⟩
        = some (none, ⟨"linux", [], none, [], [],
            [Effect.write prompt none, Effect.read [110, 10] none], ["User denied"]⟩)
      ∧ runs [Effect.write prompt none, Effect.read [110, 10] none] = runs []
      ∧ ∃ n, 0 < n ∧ outputText [Effect.write prompt none, Effect.read [110, 10] none]
          = outputText [] ++ List.replicate n prompt := by
  have h := ExecuteCommandWithConfirmation_denied 7 "echo hello"
    ⟨"linux", [⟨[110, 10], none⟩], none, [], [], [], []⟩
    ⟨"linux", [], none, [], [], [Effect.write prompt none, Effect.read [110, 10] none],
      ["User denied"]⟩ (by decide)
  exact h

/-- C5: `ExecuteCommandWithConfirmation` runs the executor exactly when
`getUserConfirmation` returned true and no error.  In that case its result is that
of `executeShellCommand` on the caller's context and command, in the world the
confirmation left (so on the same writer); one process is run, after a prompt written
in full, with the command string as its last argument, and the error returned is the
one of that process.  Otherwise nothing is run and the result of the confirmation is
returned.  The confirmation itself never runs a process. -/
theorem ExecuteCommandWithConfirmation_gate (ctx : Nat) (command : String) (w : World) :
    ∃ b e w1 r w2,
      getUserConfirmation w = some ((b, e), w1)
      ∧ ExecuteCommandWithConfirmation ctx command w = some (r, w2)
      ∧ runs w1.trace = runs w.trace
      ∧ if b = true ∧ e = none then
          (r, w2) = executeShellCommand ctx command w1
          ∧ (∃ d res, w1.trace = w.trace ++ d ∧ Effect.write prompt none ∈ d
              ∧ w2.trace = w1.trace ++ [Effect.run
                  ⟨ctx, if w.goos = "windows" then "cmd" else "bash",
                    [if w.goos = "windows" then "/C" else "-c", command]⟩ res]
              ∧ r = res.err)
          ∧ runs w2.trace = runs w.trace ++
              [⟨ctx, if w.goos = "windows" then "cmd" else "bash",
                [if w.goos = "windows" then "/C" else "-c", command]⟩]
        else
          (r, w2) = (e, w1) ∧ runs w2.trace = runs w.trace := by
  obtain ⟨⟨⟨b, e⟩, w1⟩, h⟩ := getUserConfirmation_returns w
  have hr := getUserConfirmation_runs w w1 b e h
  obtain ⟨⟨hg, _, _⟩, _, hp⟩ := getUserConfirmation_extends w w1 b e h
  cases e with
  | some err =>
    refine ⟨b, some err, w1, some err, w1, h, ?_, hr, ?_⟩
    · unfold ExecuteCommandWithConfirmation; rw [h]
    · rw [if_neg (by simp)]; exact ⟨rfl, hr⟩
  | none =>
    cases b with
    | false =>
      refine ⟨false, none, w1, none, w1, h, ?_, hr, ?_⟩
      · unfold ExecuteCommandWithConfirmation; rw [h]; simp
      · rw [if_neg (by simp)]; exact ⟨rfl, hr⟩
    | true =>
      obtain ⟨res, h1, h2⟩ := executeShellCommand_run ctx command w1
      obtain ⟨d, hd, hm⟩ := hp rfl
      rw [hg] at h2
      refine ⟨true, none, w1, (executeShellCommand ctx command w1).1,
        (executeShellCommand ctx command w1).2, h, ?_, hr, ?_⟩
      · unfold ExecuteCommandWithConfirmation; rw [h]; simp
      · rw [if_pos ⟨rfl, rfl⟩]
        refine ⟨rfl, ⟨d, res, hd, hm, h2, h1⟩, ?_⟩
        rw [h2, runs_append, hr]
        rfl


/-! ## The confirmation prompt: failures of the streams -/

/-- C6 fails as stated: when one `Read` of a reader that is not a `bufio.Reader` hands
over the two unrecognised characters `x` and `q` together and the input then ends,
`getUserConfirmation` returns the end-of-file error after two prompts, not three. -/
theorem getUserConfirmation_xq_in_one_read :
    (getUserConfirmation ⟨"linux", [⟨[120, 113], none⟩], none, [], [], [], []⟩).map
        (fun r => (r.1, prompts r.2.trace))
      = some ((false, some GoError.EOF), 2) := by
  decide

/-- C6, amended: on an empty input `getUserConfirmation` returns false with the
end-of-file error of the read after one prompt; more generally `k` unrecognised
characters followed by the end of the input give false with that error after
`k + 1` prompts, the first `k + 1` writes succeeding, in two cases.  When the input
is itself a `bufio.Reader` of at least 4096 bytes: for every such sequence of
characters, whatever the non-empty pieces its bytes are handed over in without
error.  When the input is any other reader: if each of its `k` calls of `Read` that
hand over bytes hands over at most 4096 bytes that begin with a full unrecognised
character (as when the characters arrive one per `Read`). -/
theorem getUserConfirmation_end_of_file (w : World) :
    (∀ chars : List (List Nat),
      (∀ o ∈ w.writes.take (chars.length + 1), o = none) →
      Delivers w chars.flatten [] →
      (∀ ch ∈ chars, Unrecognised ch) →
      ∃ w', getUserConfirmation w = some ((false, some GoError.EOF), w')
        ∧ prompts w'.trace = prompts w.trace + chars.length + 1
        ∧ w'.input = [])
    ∧ (∀ chunks : List ReadResult,
      w.bufio = none →
      (∀ o ∈ w.writes.take (chunks.length + 1), o = none) →
      w.input = chunks →
      (∀ r ∈ chunks, FullRune r.bytes = true ∧ r.bytes.length ≤ defaultBufSize
        ∧ recognised (firstRune r.bytes) = false) →
      ∃ w', getUserConfirmation w = some ((false, some GoError.EOF), w')
        ∧ w'.trace = w.trace ++ rounds chunks
            ++ [Effect.write prompt none, Effect.read [] (some GoError.EOF)]
        ∧ prompts w'.trace = prompts w.trace + chunks.length + 1
        ∧ w'.input = []) := by
  refine ⟨?_, ?_⟩
  · intro chars hw hd hch
    obtain ⟨hw1, hw2⟩ := writes_ok_split chars.length w.writes hw
    obtain ⟨w1, d1, e1, dl1, _, _, ws1, t1, _, c1⟩ :=
      getUserConfirmation_delivers_rounds chars w [] [] (by simpa using hd) hw1 hch
    obtain ⟨hl, _⟩ := loopBody_delivers_end w1 GoError.EOF [] [] dl1 (by rw [ws1]; exact hw2)
      (Or.inl ⟨rfl, rfl, rfl⟩)
    refine ⟨_, by rw [e1, getUserConfirmation_unfold, hl], ?_, rfl⟩
    simp only
    rw [t1, prompts_append, prompts_append, c1]
    simp [prompts, List.count_cons]
  · intro chunks hb hw hin hch
    obtain ⟨hw1, hw2⟩ := writes_ok_split chunks.length w.writes hw
    rw [getUserConfirmation_rounds chunks w [] hb (by simpa using hin) hw1 hch,
      getUserConfirmation_unfold,
      loopBody_no_byte _ GoError.EOF [] (by exact hb) hw2 (Or.inl ⟨rfl, rfl, rfl⟩)]
    refine ⟨_, rfl, rfl, ?_, rfl⟩
    simp only
    rw [prompts_append, prompts_append, prompts_rounds]
    simp [prompts, List.count_cons]

theorem getUserConfirmation_end_of_file_witness :
    (∃ w', getUserConfirmation
          ⟨"linux", [⟨[120, 113], none⟩], some ⟨0, [], none⟩, [], [], [], []⟩
        = some ((false, some GoError.EOF), w')
      ∧ prompts w'.trace = prompts [] + [[120], [113]].length + 1
      ∧ w'.input = [])
    ∧ (∃ w', getUserConfirmation
          ⟨"linux", [⟨[120], none⟩, ⟨[113, 10], none⟩], none, [], [], [], []⟩
        = some ((false, some GoError.EOF), w')
      ∧ w'.trace = [] ++ rounds [⟨[120], none⟩, ⟨[113, 10], none⟩]
          ++ [Effect.write prompt none, Effect.read [] (some GoError.EOF)]
      ∧ prompts w'.trace
          = prompts [] + [(⟨[120], none⟩ : ReadResult), ⟨[113, 10], none⟩].length + 1
      ∧ w'.input = []) := by
  have h1 := (getUserConfirmation_end_of_file
    ⟨"linux", [⟨[120, 113], none⟩], some ⟨0, [], none⟩, [], [], [], []⟩).1
    [[120], [113]] (by decide)
    ⟨⟨0, [], none⟩, [⟨[120, 113], none⟩], rfl, rfl, rfl, by decide, rfl⟩
    (by
      intro ch hch
      simp only [List.mem_cons, List.mem_singleton, List.mem_nil_iff, or_false] at hch
      rcases hch with rfl | rfl <;> exact ⟨by decide, by decide, by decide⟩)
  have h2 := (getUserConfirmation_end_of_file
    ⟨"linux", [⟨[120], none⟩, ⟨[113, 10], none⟩], none, [], [], [], []⟩).2
    [⟨[120], none⟩, ⟨[113, 10], none⟩] rfl (by decide) rfl (by decide)
  exact ⟨h1, h2⟩

/-- C7 fails as stated: a `Read` may hand over bytes together with an error.  When the
`Read` of a reader that is not a `bufio.Reader` hands over `y` with the error
"closed", `getUserConfirmation` returns true and no error, and
`ExecuteCommandWithConfirmation` runs the command and returns nil; when it hands
over `x` with that error and then `y`, a second prompt is written and true is
returned.  The error stays in the reader made for the iteration and is dropped with
it. -/
theorem getUserConfirmation_error_with_bytes :
    (getUserConfirmation
        ⟨"linux", [⟨[121], some (GoError.other "closed")⟩], none, [], [], [], []⟩).map
        (fun r => (r.1, prompts r.2.trace))
      = some ((true, none), 1)
    ∧ (ExecuteCommandWithConfirmation 0 "echo hello"
        ⟨"linux", [⟨[121], some (GoError.other "closed")⟩], none, [], [], [], []⟩).map
        (fun r => (r.1, runs r.2.trace))
      = some (none, [⟨0, "bash", ["-c", "echo hello"]⟩])
    ∧ (getUserConfirmation
        ⟨"linux", [⟨[120], some (GoError.other "closed")⟩, ⟨[121], none⟩], none,
          [], [], [], []⟩).map
        (fun r => (r.1, prompts r.2.trace))
      = some ((true, none), 2) := by
  decide

/-- C7, amended: `getUserConfirmation` returns at once and unchanged the error of a
failed write of the prompt and the error of a read that brings no byte.  If the
write of the prompt fails with `e`, it returns false and `e` and the input is left as
it was (no `Read` follows the failed write), also after iterations that were each
handed an unrecognised character.  If the `Read` hands over no byte and the error
`e`, it returns false and `e` and no further prompt is written, on an input that is
wrapped in a new reader (also after such iterations) and on an input that is itself
a `bufio.Reader` with nothing buffered; such a `bufio.Reader` with nothing buffered
and the error `e` pending gives false and `e` without a `Read`.  Whenever
`getUserConfirmation` returns an error, `ExecuteCommandWithConfirmation` returns
that same error.  An error that a `Read` hands over together with bytes is not
returned by the iteration: on an input that is wrapped in a new reader, when the
bytes (at most 4096) begin with a full rune, the iteration decides on that rune,
returns its outcome without error if it is an answer and goes round again if not,
and the error is dropped with the reader. -/
theorem getUserConfirmation_io_failure (w : World) (chunks : List ReadResult) (e : GoError)
    (hch : ∀ r ∈ chunks, FullRune r.bytes = true ∧ r.bytes.length ≤ defaultBufSize
      ∧ recognised (firstRune r.bytes) = false) :
    (∀ ws, w.writes = some e :: ws →
        getUserConfirmation w = some ((false, some e),
          { w with writes := ws, trace := w.trace ++ [Effect.write prompt (some e)] }))
    ∧ (∀ tail ws, w.bufio = none → w.input = chunks ++ tail →
        w.writes = List.replicate chunks.length none ++ some e :: ws →
        getUserConfirmation w = some ((false, some e),
          { w with input := tail, writes := ws,
                   trace := w.trace ++ rounds chunks ++ [Effect.write prompt (some e)],
                   log := w.log ++ chunks.map fun r => unrecognisedLine (firstRune r.bytes) }))
    ∧ (∀ rest, w.bufio = none → w.input = chunks ++ ⟨[], some e⟩ :: rest →
        (∀ o ∈ w.writes.take (chunks.length + 1), o = none) →
        getUserConfirmation w = some ((false, some e),
          { w with input := rest, writes := w.writes.drop (chunks.length + 1),
                   trace := w.trace ++ rounds chunks
                     ++ [Effect.write prompt none, Effect.read [] (some e)],
                   log := w.log ++ chunks.map fun r => unrecognisedLine (firstRune r.bytes) }))
    ∧ (∀ rest, Delivers w [] (⟨[], some e⟩ :: rest) → w.writes.headD none = none →
        getUserConfirmation w = some ((false, some e),
          { w with input := rest, writes := w.writes.tail,
                   trace := w.trace ++ [Effect.write prompt none, Effect.read [] (some e)] }))
    ∧ (∀ b, w.bufio = some b → b.buf = [] → b.err = some e → w.writes.headD none = none →
        getUserConfirmation w = some ((false, some e),
          { w with bufio := some { b with err := none }, writes := w.writes.tail,
                   trace := w.trace ++ [Effect.write prompt none] }))
    ∧ (∀ ctx command b w1, getUserConfirmation w = some ((b, some e), w1) →
        ExecuteCommandWithConfirmation ctx command w = some (some e, w1))
    ∧ (∀ r rest, w.bufio = none → w.writes.headD none = none → w.input = r :: rest →
        FullRune r.bytes = true → r.bytes.length ≤ defaultBufSize →
        ∃ w1, w1.input = rest ∧ w1.bufio = none
          ∧ w1.trace = w.trace ++ [Effect.write prompt none, Effect.read r.bytes r.err]
          ∧ getUserConfirmation w =
              if recognised (firstRune r.bytes) = true then
                some ((affirmative (firstRune r.bytes), none), w1)
              else getUserConfirmation w1) := by
  refine ⟨?_, ?_, ?_, ?_, ?_, ?_, ?_⟩
  · intro ws hws
    rw [getUserConfirmation_unfold, loopBody_write_fail w e ws hws]
  · intro tail ws hb hin hws
    have hw1 : ∀ o ∈ w.writes.take chunks.length, o = none := by
      intro o ho
      rw [hws, List.take_left' (List.length_replicate _ _)] at ho
      exact List.eq_of_mem_replicate ho
    have hd : w.writes.drop chunks.length = some e :: ws := by
      rw [hws, List.drop_left' (List.length_replicate _ _)]
    rw [getUserConfirmation_rounds chunks w tail hb hin hw1 hch, getUserConfirmation_unfold,
      loopBody_write_fail _ e ws hd]
  · intro rest hb hin hw
    obtain ⟨hw1, hw2⟩ := writes_ok_split chunks.length w.writes hw
    rw [getUserConfirmation_rounds chunks w _ hb hin hw1 hch, getUserConfirmation_unfold,
      loopBody_no_byte _ e rest (by exact hb) hw2 (Or.inr rfl)]
    simp
  · intro rest hd hw
    rw [getUserConfirmation_unfold,
      (loopBody_delivers_end w e rest _ hd hw (Or.inr rfl)).1]
  · intro b hb h0 he hw
    rw [getUserConfirmation_unfold, loopBody_pending_err w b e hb hw h0 he]
  · intro ctx command b w1 h
    unfold ExecuteCommandWithConfirmation
    rw [h]
  · intro r rest hb hw hin hfull hlen
    have hq := Read_fits
      { w with writes := w.writes.tail, trace := w.trace ++ [Effect.write prompt none] }
      r rest defaultBufSize hin hlen
    have hl := loopBody_first w _ hb hw rfl (by rw [hq]; exact hfull)
    rw [hq] at hl
    simp only at hl
    by_cases ha : affirmative (firstRune r.bytes) = true
    · have hr : recognised (firstRune r.bytes) = true := by
        simp only [recognised, affirmative, List.mem_cons, List.mem_singleton,
          List.mem_nil_iff, or_false, decide_eq_true_eq] at ha ⊢
        tauto
      rw [if_pos ha] at hl
      refine ⟨World.Debug "User confirmed"
        { w with input := rest, writes := w.writes.tail,
                 trace := w.trace ++ [Effect.write prompt none] ++ [Effect.read r.bytes r.err] },
        rfl, hb, by simp, ?_⟩
      rw [getUserConfirmation_unfold, hl, if_pos hr, ha]
    · rw [if_neg ha] at hl
      have ha' : affirmative (firstRune r.bytes) = false := by simpa using ha
      by_cases hr : recognised (firstRune r.bytes) = true
      · rw [if_pos hr] at hl
        refine ⟨World.Debug "User denied"
          { w with input := rest, writes := w.writes.tail,
                   trace := w.trace ++ [Effect.write prompt none] ++ [Effect.read r.bytes r.err] },
          rfl, hb, by simp, ?_⟩
        rw [getUserConfirmation_unfold, hl, if_pos hr, ha']
      · rw [if_neg hr] at hl
        refine ⟨World.Debug (unrecognisedLine (firstRune r.bytes))
          { w with input := rest, writes := w.writes.tail,
                   trace := w.trace ++ [Effect.write prompt none] ++ [Effect.read r.bytes r.err] },
          rfl, hb, by simp, ?_⟩
        rw [getUserConfirmation_unfold, hl, if_neg hr]

theorem getUserConfirmation_io_failure_witness :
    getUserConfirmation
        ⟨"linux", [⟨[120], none⟩, ⟨[121], none⟩], none,
          [none, some (GoError.other "closed pipe")], [], [], []⟩
      = some ((false, some (GoError.other "closed pipe")),
          ⟨"linux", [⟨[121], none⟩], none, [], [],
            [Effect.write prompt none, Effect.read [120] none,
              Effect.write prompt (some (GoError.other "closed pipe"))],
            [unrecognisedLine 120]⟩)
    ∧ getUserConfirmation
        ⟨"linux", [⟨[120], none⟩, ⟨[], some (GoError.other "closed pipe")⟩, ⟨[121], none⟩],
          none, [], [], [], []⟩
      = some ((false, some (GoError.other "closed pipe")),
          ⟨"linux", [⟨[121], none⟩], none, [], [],
            [Effect.write prompt none, Effect.read [120] none, Effect.write prompt none,
              Effect.read [] (some (GoError.other "closed pipe"))],
            [unrecognisedLine 120]⟩) := by
  have h1 := (getUserConfirmation_io_failure
    ⟨"linux", [⟨[120], none⟩, ⟨[121], none⟩], none,
      [none, some (GoError.other "closed pipe")], [], [], []⟩
    [⟨[120], none⟩] (GoError.other "closed pipe") (by decide)).2.1
    [⟨[121], none⟩] [] rfl rfl rfl
  have h2 := (getUserConfirmation_io_failure
    ⟨"linux", [⟨[120], none⟩, ⟨[], some (GoError.other "closed pipe")⟩, ⟨[121], none⟩],
      none, [], [], [], []⟩
    [⟨[120], none⟩] (GoError.other "closed pipe") (by decide)).2.2.1 [⟨[121], none⟩] rfl rfl
    (by decide)
  exact ⟨h1, h2⟩


/-! ## The pipe detector -/

/-- C8: `IsPipedShell` is decided by the named-pipe bit (bit 25) of the file mode of
standard input alone: on a mode it returns that bit and no error, whatever the other
bits, and when the stat query fails it returns false with the error of the query. -/
theorem IsPipedShell_named_pipe_bit :
    (∀ mode : Nat, IsPipedShell (Except.ok mode) = (mode.testBit 25, none))
      ∧ (∀ err : GoError, IsPipedShell (Except.error err) = (false, some err))
      ∧ ModeNamedPipe = 2 ^ 25 := by
  have hm : ModeNamedPipe = 2 ^ 25 := by decide
  refine ⟨?_, fun _ => rfl, hm⟩
  intro mode
  unfold IsPipedShell
  simp only [hm, Nat.and_two_pow]
  cases h : mode.testBit 25 <;> simp

/-! ## The command executor -/

/-- C9: `executeShellCommand` runs one process, chosen by the host operating system
alone: `cmd` with the arguments `/C` and the command when `runtime.GOOS` is
"windows", `bash` with the arguments `-c` and the command for every other value.
The argument list has two elements and the command string is the second of them,
unchanged; the context is the caller's and the error returned is the one of the
process. -/
theorem executeShellCommand_interpreter (ctx : Nat) (command : String) (w : World) :
    ∃ cmd res,
      (executeShellCommand ctx command w).2.trace = w.trace ++ [Effect.run cmd res]
      ∧ (executeShellCommand ctx command w).1 = res.err
      ∧ cmd.ctx = ctx
      ∧ (cmd.name, cmd.args)
          = (if w.goos = "windows" then ("cmd", ["/C", command]) else ("bash", ["-c", command]))
      ∧ cmd.args.length = 2
      ∧ cmd.args.getLast? = some command := by
  obtain ⟨res, h1, h2⟩ := executeShellCommand_run ctx command w
  refine ⟨_, res, h2, h1, rfl, ?_, rfl, rfl⟩
  by_cases hg : w.goos = "windows"
  · simp [hg]
  · simp [hg]

/-! ## A new reader for every prompt, unless the input is a `bufio.Reader` -/

/-- C10 fails as stated: when the input is itself a `bufio.Reader` (with a buffer of
4096 bytes) over a strings reader over "xy", `bufio.NewReader` hands that reader
back, the `y` read with the `x` stays in its buffer, and `getUserConfirmation`
returns true and no error after two prompts, not the end-of-file error. -/
theorem getUserConfirmation_xy_in_bufio_reader :
    (getUserConfirmation
        ⟨"linux", [⟨[120, 121], none⟩], some ⟨0, [], none⟩, [], [], [], []⟩).map
        (fun r => (r.1, prompts r.2.trace))
      = some ((true, none), 2) := by
  decide

/-- C10, amended: on every input that is not itself a `bufio.Reader` with a buffer
of at least 4096 bytes, each iteration of `getUserConfirmation` reads through a new
buffered reader, so it decides on the first rune of what one `Read` hands over and
the other bytes of that `Read` are gone: when a single `Read` hands over a full
unrecognised character `ch` followed by any further bytes `more` (at most 4096
bytes in all) and the input then ends, the function returns the end-of-file error
after two prompts, whatever `more` is, whereas when `ch` comes in a `Read` of its
own and the next `Read` begins with an answer `c`, it returns the outcome of `c`.
On an input that is itself such a `bufio.Reader`, `bufio.NewReader` hands the input
back and nothing read is lost: `ch` followed by an answer `c` gives the outcome of
`c` after two prompts, in one `Read` or in several. -/
theorem getUserConfirmation_fresh_reader (w : World) (ch : List Nat)
    (hw : ∀ o ∈ w.writes.take 2, o = none)
    (hfull : FullRune ch = true)
    (hun : recognised (firstRune ch) = false) :
    (∀ more e, w.bufio = none → (ch ++ more).length ≤ defaultBufSize →
        w.input = [⟨ch ++ more, e⟩] →
        ∃ w1, getUserConfirmation w = some ((false, some GoError.EOF), w1)
          ∧ w1.trace = w.trace ++ [Effect.write prompt none, Effect.read (ch ++ more) e,
              Effect.write prompt none, Effect.read [] (some GoError.EOF)])
    ∧ (∀ c more e, w.bufio = none → c ∈ [89, 121, 13, 10, 78, 110] →
        ch.length ≤ defaultBufSize → (c :: more).length ≤ defaultBufSize →
        w.input = [⟨ch, none⟩, ⟨c :: more, e⟩] →
        ∃ w1, getUserConfirmation w = some ((decide (c ∈ [89, 121, 13, 10]), none), w1)
          ∧ w1.trace = w.trace ++ [Effect.write prompt none, Effect.read ch none,
              Effect.write prompt none, Effect.read (c :: more) e])
    ∧ (∀ c more rest, c ∈ [89, 121, 13, 10, 78, 110] → runeWidth ch = ch.length →
        Delivers w (ch ++ c :: more) rest →
        ∃ w1, getUserConfirmation w = some ((decide (c ∈ [89, 121, 13, 10]), none), w1)
          ∧ prompts w1.trace = prompts w.trace + 2
          ∧ Delivers w1 more rest) := by
  refine ⟨?_, ?_, ?_⟩
  · intro more e hb hlen hin
    have hch : ∀ r ∈ [(⟨ch ++ more, e⟩ : ReadResult)], FullRune r.bytes = true
        ∧ r.bytes.length ≤ defaultBufSize ∧ recognised (firstRune r.bytes) = false := by
      intro r hr
      rw [List.mem_singleton] at hr
      subst hr
      exact ⟨FullRune_append ch more hfull, hlen, by rw [firstRune_append ch more hfull]; exact hun⟩
    obtain ⟨hw1, hw2⟩ := writes_ok_split 1 w.writes hw
    rw [getUserConfirmation_rounds [⟨ch ++ more, e⟩] w [] hb (by simpa using hin) hw1 hch,
      getUserConfirmation_unfold,
      loopBody_no_byte _ GoError.EOF [] (by exact hb) hw2 (Or.inl ⟨rfl, rfl, rfl⟩)]
    exact ⟨_, rfl, by simp [rounds]⟩
  · intro c more e hb hc hl1 hl2 hin
    have hrec := recognised_of_mem c hc
    have hch : ∀ r ∈ [(⟨ch, none⟩ : ReadResult)], FullRune r.bytes = true
        ∧ r.bytes.length ≤ defaultBufSize ∧ recognised (firstRune r.bytes) = false := by
      intro r hr
      rw [List.mem_singleton] at hr
      subst hr
      exact ⟨hfull, hl1, hun⟩
    obtain ⟨hw1, hw2⟩ := writes_ok_split 1 w.writes hw
    rw [getUserConfirmation_rounds [⟨ch, none⟩] w [⟨c :: more, e⟩] hb (by simpa using hin)
      hw1 hch, getUserConfirmation_unfold]
    obtain ⟨w', hl, ht, _, _, _⟩ := loopBody_answer
      { w with input := [⟨c :: more, e⟩],
               writes := w.writes.drop [(⟨ch, none⟩ : ReadResult)].length,
               trace := w.trace ++ rounds [⟨ch, none⟩],
               log := w.log ++ [(⟨ch, none⟩ : ReadResult)].map fun r =>
                 unrecognisedLine (firstRune r.bytes) }
      c more e [] hb hw2 rfl hrec
    rw [hl, affirmative_eq]
    refine ⟨w', rfl, ?_⟩
    rw [ht, List.take_of_length_le hl2, if_pos hl2]
    simp [rounds]
  · intro c more rest hc hwd hd
    have hrec := recognised_of_mem c hc
    obtain ⟨hw1, hw2⟩ := writes_ok_split 1 w.writes hw
    obtain ⟨w1, d1, e1, dl1, _, _, ws1, t1, _, c1⟩ :=
      getUserConfirmation_delivers_rounds [ch] w (c :: more) rest (by simpa using hd) hw1
        (by
          intro x hx
          rw [List.mem_singleton] at hx
          subst hx
          exact ⟨hfull, hwd, hun⟩)
    obtain ⟨w2, d2, hl, dl2, t2, a2⟩ :=
      loopBody_delivers_answer w1 c more rest dl1 (by rw [ws1]; exact hw2) hrec
    refine ⟨w2, ?_, ?_, dl2⟩
    · rw [e1, getUserConfirmation_unfold, hl, affirmative_eq]
    · rw [t2, prompts_step _ _ a2, t1, prompts_append, c1]
      rfl

theorem getUserConfirmation_fresh_reader_witness :
    (∃ w1, getUserConfirmation ⟨"linux", [⟨[120] ++ [121], none⟩], none, [], [], [], []⟩
        = some ((false, some GoError.EOF), w1)
      ∧ w1.trace = [] ++ [Effect.write prompt none, Effect.read ([120] ++ [121]) none,
          Effect.write prompt none, Effect.read [] (some GoError.EOF)])
    ∧ (∃ w1, getUserConfirmation
          ⟨"linux", [⟨[120], none⟩, ⟨[121], none⟩], none, [], [], [], []⟩
        = some ((decide (121 ∈ [89, 121, 13, 10]), none), w1)
      ∧ w1.trace = [] ++ [Effect.write prompt none, Effect.read [120] none,
          Effect.write prompt none, Effect.read [121] none])
    ∧ (∃ w1, getUserConfirmation
          ⟨"linux", [⟨[120, 121], none⟩], some ⟨0, [], none⟩, [], [], [], []⟩
        = some ((decide (121 ∈ [89, 121, 13, 10]), none), w1)
      ∧ prompts w1.trace = prompts [] + 2
      ∧ Delivers w1 [] []) := by
  have h1 := (getUserConfirmation_fresh_reader
    ⟨"linux", [⟨[120] ++ [121], none⟩], none, [], [], [], []⟩ [120]
    (by decide) (by decide) (by decide)).1 [121] none rfl (by decide) rfl
  have h2 := (getUserConfirmation_fresh_reader
    ⟨"linux", [⟨[120], none⟩, ⟨[121], none⟩], none, [], [], [], []⟩ [120]
    (by decide) (by decide) (by decide)).2.1 121 [] none rfl (by decide) (by decide)
    (by decide) rfl
  have h3 := (getUserConfirmation_fresh_reader
    ⟨"linux", [⟨[120, 121], none⟩], some ⟨0, [], none⟩, [], [], [], []⟩ [120]
    (by decide) (by decide) (by decide)).2.2 121 [] [] (by decide) (by decide)
    ⟨⟨0, [], none⟩, [⟨[120, 121], none⟩], rfl, rfl, rfl, by decide, rfl⟩
  exact ⟨h1, h2, h3⟩

end Shell
